import Mathlib

/-!
Verification of the containment-resolution core of `obsidian-cannonball-graph`
(`src/markdown.ts`).  The development embeds the markdown AST node shape and the
functions `processHierarchicalRelationships`, `buildContainmentTree`,
`findNodeAtCursor`, `calculateNodeArea`, `isNodeAtPosition`, `contentFromNode`
and `buildContextFromNode` as executable Lean definitions, and proves the
specification's claims about them.
-/

namespace Cannonball

/-- A point in the source document (mdast `Point`): 1-based `line` and `column`.
Coordinates are modelled as `Int` (JavaScript numbers under subtraction).  The
`offset` field of mdast points is never read by any of the functions modelled
here and is omitted. -/
structure Point where
  line : Int
  column : Int
deriving Repr, DecidableEq

/-- A node span (mdast `Position`): start and end points.  The source field
`end` is a Lean keyword, so it is called `stop` here. -/
structure Position where
  start : Point
  stop : Point
deriving Repr, DecidableEq

/-- A node of the parsed markdown tree.  This mirrors the mdast `Node` shape as
used by `markdown.ts`, together with the optional decoration fields of
`ExtendedNode` (`containerType`, `headingLevel`) that
`processHierarchicalRelationships` writes onto nodes.

`id` models JavaScript reference identity: distinct objects of one tree have
distinct `id`s (theorems that depend on identity assume the tree's ids are
distinct, which is automatic for object references in one parse tree).
`type` is the mdast type tag string; `depth` is present on headings.  The
`checked` field of list items is never read by the functions modelled here and
is omitted. -/
inductive MdNode where
  | mk (id : Nat) (type : String) (depth : Option Nat) (position : Option Position)
      (containerType : Option String) (headingLevel : Option Nat)
      (children : List MdNode)
deriving Repr

def MdNode.id : MdNode → Nat
  | .mk i _ _ _ _ _ _ => i

def MdNode.type : MdNode → String
  | .mk _ t _ _ _ _ _ => t

def MdNode.depth : MdNode → Option Nat
  | .mk _ _ d _ _ _ _ => d

def MdNode.position : MdNode → Option Position
  | .mk _ _ _ p _ _ _ => p

def MdNode.containerType : MdNode → Option String
  | .mk _ _ _ _ ct _ _ => ct

def MdNode.headingLevel : MdNode → Option Nat
  | .mk _ _ _ _ _ hl _ => hl

def MdNode.children : MdNode → List MdNode
  | .mk _ _ _ _ _ _ cs => cs

/-- `const ignoreTypes = ['root', 'list', 'text', 'strong', 'emphasis']`. -/
def ignoreTypes : List String := ["root", "list", "text", "strong", "emphasis"]

/-- `isContainerNode`: root, heading, listItem and blockquote are containers. -/
def isContainerNode (n : MdNode) : Bool :=
  n.type == "root" || n.type == "heading" || n.type == "listItem" || n.type == "blockquote"

/-- `getContainerType`: maps the four container node types to their
`ContainerType` tag; any other type throws (`none` models the thrown
`Error("Unknown container type: ...")`). -/
def getContainerType (n : MdNode) : Option String :=
  if n.type == "root" then some "root"
  else if n.type == "heading" then some "heading"
  else if n.type == "listItem" then some "listItem"
  else if n.type == "blockquote" then some "blockquote"
  else none

/-- One entry of the resolver's container stack: the pushed node together with
the `containerType` and `headingLevel` decorations the resolver assigned to
that node when pushing it.  (The source mutates the node object itself; the
resolver only ever reads these two fields back from stack entries, so carrying
them on the entry is an exact model.) -/
structure StackEntry where
  node : MdNode
  containerType : String
  headingLevel : Option Nat
deriving Repr

/-- One `(container, member)` pair handed to the resolver's callback. -/
structure Edge where
  container : MdNode
  member : MdNode
deriving Repr

/-- The container/member ids of an edge (reference identity projection). -/
def Edge.ids (e : Edge) : Nat × Nat := (e.container.id, e.member.id)

/-- The resolver's traversal state: the container stack (top element first,
i.e. the head of the list is `containerStack[containerStack.length - 1]` of
the source and the last element is `containerStack[0]`) and the edges emitted
so far, in emission order. -/
structure St where
  stack : List StackEntry
  edges : List Edge
deriving Repr

/-- JavaScript `a < b` where `b : number | undefined`: comparison with
`undefined` is false. -/
def jsLtOpt (a : Nat) (b : Option Nat) : Bool :=
  match b with
  | some d => a < d
  | none => false

/-- The heading pre-trim loop:
`while (containerStack.length > 1) { ... }` — pop until the top is a heading of
strictly smaller level (`(top.headingLevel || 0) < depth`) or the root entry,
or only one entry is left. -/
def headingPreTrim (depth : Option Nat) : List StackEntry → List StackEntry
  | [] => []
  | [x] => [x]
  | top :: x :: rest =>
    if top.containerType == "heading" then
      if jsLtOpt (top.headingLevel.getD 0) depth then top :: x :: rest
      else headingPreTrim depth (x :: rest)
    else if top.containerType == "root" then top :: x :: rest
    else headingPreTrim depth (x :: rest)

/-- `while (containerStack.length > 1) { containerStack.pop(); }` — used for
thematic breaks and for the list-item full reset. -/
def resetToRoot : List StackEntry → List StackEntry
  | [] => []
  | [x] => [x]
  | _ :: x :: rest => resetToRoot (x :: rest)

/-- `isDirectParentListItem(potentialParent, child, childParent)`: true iff the
child's parent is a `list` node that is (by reference) one of the potential
parent's own children.  The `child` argument is unused in the source as well.
(`potentialParent.children` is always a truthy array here, matching the model.) -/
def isDirectParentListItem (potentialParent : MdNode) (_child : MdNode)
    (childParent : Option MdNode) : Bool :=
  match childParent with
  | none => false
  | some cp =>
    if cp.type == "list" then
      potentialParent.children.any (fun item => item.type == "list" && item.id == cp.id)
    else false

/-- The body of the `visit` callback of `processHierarchicalRelationships` for
one visited node, as a state transition.  `parent` is the node's parent in the
parse tree (the `parent` argument `visit` passes to the visitor).  The
`.error` results model the `throw` in `getContainerType` and an access to the
top of an empty stack; both are proved unreachable below. -/
def visitStep (node : MdNode) (parent : Option MdNode) (st : St) : Except String St :=
  if ignoreTypes.contains node.type then
    .ok st
  else if node.type == "thematicBreak" then
    .ok { st with stack := resetToRoot st.stack }
  else if isContainerNode node then
    match getContainerType node with
    | none => .error ("Unknown container type: " ++ node.type)
    | some ct =>
      let stack1 :=
        if node.type == "heading" then
          headingPreTrim node.depth st.stack
        else if node.type == "listItem" then
          match st.stack with
          | [] => []
          | top :: rest =>
            if top.containerType == "listItem"
                && !isDirectParentListItem top.node node parent then
              resetToRoot (top :: rest)
            else top :: rest
        else st.stack
      match stack1 with
      | [] => .error "container stack is empty"
      | container :: _ =>
        .ok { stack :=
                { node := node, containerType := ct,
                  headingLevel := if node.type == "heading" then node.depth else none }
                :: stack1,
              edges := st.edges ++ [{ container := container.node, member := node }] }
  else
    match st.stack with
    | [] => .error "container stack is empty"
    | container :: _ =>
      .ok { st with edges := st.edges ++ [{ container := container.node, member := node }] }

/-- Runs `visitStep` over a list of `(node, parent)` visit events. -/
def runEvents : List (MdNode × Option MdNode) → St → Except String St
  | [], st => .ok st
  | (n, p) :: evs, st =>
    match visitStep n p st with
    | .error e => .error e
    | .ok st1 => runEvents evs st1

/- The `(node, parent)` events of `unist-util-visit`'s pre-order traversal:
each node is visited before its children, children in source order, with its
parse-tree parent. -/
mutual
def preorderEvents (parent : Option MdNode) : MdNode → List (MdNode × Option MdNode)
  | .mk i t d p ct hl cs =>
    (.mk i t d p ct hl cs, parent) :: preorderEventsList (.mk i t d p ct hl cs) cs
def preorderEventsList (parent : MdNode) : List (MdNode) → List (MdNode × Option MdNode)
  | [] => []
  | c :: cs => preorderEvents (some parent) c ++ preorderEventsList parent cs
end

/- The nodes of a tree in pre-order (the order `visit` and the cursor lookup's
`visitNode` traverse them). -/
mutual
def preorderNodes : MdNode → List MdNode
  | .mk i t d p ct hl cs => .mk i t d p ct hl cs :: preorderNodesList cs
def preorderNodesList : List MdNode → List MdNode
  | [] => []
  | c :: cs => preorderNodes c ++ preorderNodesList cs
end

/-- The pre-order list of node ids of a tree. -/
def MdNode.ids (n : MdNode) : List Nat := (preorderNodes n).map MdNode.id

/-- `processHierarchicalRelationships(ast, callback)`: pushes the root entry
(the source sets `rootNode.containerType = 'root'` and pushes `ast`), then runs
the visitor over the pre-order traversal.  The result is the list of edges the
callback received, in call order. -/
def processHierarchicalRelationships (ast : MdNode) : Except String (List Edge) :=
  match runEvents (preorderEvents none ast)
      { stack := [{ node := ast, containerType := "root", headingLevel := none }],
        edges := [] } with
  | .error e => .error e
  | .ok st => .ok st.edges

end Cannonball

namespace Cannonball

/-! ### Basic facts about the stack operations -/

theorem resetToRoot_of_getLast : ∀ (s : List StackEntry) (x : StackEntry),
    s.getLast? = some x → resetToRoot s = [x]
  | [], x => by simp
  | [y], x => by
    intro h
    simp [List.getLast?] at h
    simp [resetToRoot, h]
  | a :: b :: rest, x => by
    intro h
    rw [List.getLast?_cons_cons] at h
    exact resetToRoot_of_getLast (b :: rest) x h

theorem getLast_singleton_suffix : ∀ (s : List StackEntry) (x : StackEntry),
    s.getLast? = some x → List.IsSuffix [x] s
  | [], x => by simp
  | [y], x => by
    intro h
    simp [List.getLast?] at h
    simp [h]
  | a :: b :: rest, x => by
    intro h
    rw [List.getLast?_cons_cons] at h
    exact (getLast_singleton_suffix (b :: rest) x h).trans (List.suffix_cons a (b :: rest))

theorem headingPreTrim_suffix : ∀ (d : Option Nat) (s : List StackEntry),
    List.IsSuffix (headingPreTrim d s) s
  | d, [] => by simp [headingPreTrim]
  | d, [x] => by simp [headingPreTrim]
  | d, top :: x :: rest => by
    unfold headingPreTrim
    by_cases h1 : top.containerType == "heading"
    · simp only [h1, if_true]
      by_cases h2 : jsLtOpt (top.headingLevel.getD 0) d
      · simp [h2]
      · simp only [h2, if_false]
        exact (headingPreTrim_suffix d (x :: rest)).trans (List.suffix_cons top (x :: rest))
    · simp only [h1, if_false]
      by_cases h3 : top.containerType == "root"
      · simp [h3]
      · simp only [h3, if_false]
        exact (headingPreTrim_suffix d (x :: rest)).trans (List.suffix_cons top (x :: rest))

theorem headingPreTrim_ne : ∀ (d : Option Nat) (s : List StackEntry),
    s ≠ [] → headingPreTrim d s ≠ []
  | d, [], h => absurd rfl h
  | d, [x], _ => by simp [headingPreTrim]
  | d, top :: x :: rest, _ => by
    unfold headingPreTrim
    by_cases h1 : top.containerType == "heading"
    · simp only [h1, if_true]
      by_cases h2 : jsLtOpt (top.headingLevel.getD 0) d
      · simp [h2]
      · simp only [h2, if_false]
        exact headingPreTrim_ne d (x :: rest) (by simp)
    · simp only [h1, if_false]
      by_cases h3 : top.containerType == "root"
      · simp [h3]
      · simp only [h3, if_false]
        exact headingPreTrim_ne d (x :: rest) (by simp)

theorem headingPreTrim_getLast : ∀ (d : Option Nat) (s : List StackEntry),
    s ≠ [] → (headingPreTrim d s).getLast? = s.getLast?
  | d, [], h => absurd rfl h
  | d, [x], _ => by simp [headingPreTrim]
  | d, top :: x :: rest, _ => by
    unfold headingPreTrim
    rw [List.getLast?_cons_cons]
    by_cases h1 : top.containerType == "heading"
    · simp only [h1, if_true]
      by_cases h2 : jsLtOpt (top.headingLevel.getD 0) d
      · simp [h2, List.getLast?_cons_cons]
      · simp only [h2, if_false]
        exact headingPreTrim_getLast d (x :: rest) (by simp)
    · simp only [h1, if_false]
      by_cases h3 : top.containerType == "root"
      · simp [h3, List.getLast?_cons_cons]
      · simp only [h3, if_false]
        exact headingPreTrim_getLast d (x :: rest) (by simp)

end Cannonball

namespace Cannonball

/-- **C1.** When the resolver visits a `listItem` node while the top of the
container stack is itself a `listItem` entry that is not the direct structural
parent of the current item (per `isDirectParentListItem`), the stack is unwound
all the way down to its bottom entry (the Root entry, length 1) before the edge
for the current item is emitted: the emitted edge attaches the item to the
bottom entry's node (Root), and the resulting stack is just the pushed item on
top of the Root entry — not any enclosing heading or blockquote scope. -/
theorem listItem_nondirect_full_reset (node : MdNode) (parent : Option MdNode)
    (st : St) (top : StackEntry) (rest : List StackEntry) (root : StackEntry)
    (hstack : st.stack = top :: rest)
    (hlast : st.stack.getLast? = some root)
    (hn : node.type = "listItem")
    (htop : top.containerType = "listItem")
    (hnd : isDirectParentListItem top.node node parent = false) :
    visitStep node parent st = .ok
      { stack := [{ node := node, containerType := "listItem", headingLevel := none }, root],
        edges := st.edges ++ [{ container := root.node, member := node }] } := by
  have hreset : resetToRoot (top :: rest) = [root] := by
    rw [← hstack]; exact resetToRoot_of_getLast st.stack root hlast
  simp only [visitStep, hn, hstack]
  norm_num [ignoreTypes, isContainerNode, getContainerType, hn, htop, hnd, hreset]
  rfl

def liWitnessTop : StackEntry :=
  { node := .mk 2 "listItem" none none none none [.mk 3 "paragraph" none none none none []],
    containerType := "listItem", headingLevel := none }

def liWitnessHeading : StackEntry :=
  { node := .mk 1 "heading" (some 1) none none none [], containerType := "heading",
    headingLevel := some 1 }

def liWitnessRoot : StackEntry :=
  { node := .mk 0 "root" none none none none [], containerType := "root", headingLevel := none }

def liWitnessItem : MdNode := .mk 5 "listItem" none none none none []

theorem listItem_nondirect_full_reset_witness :
    visitStep liWitnessItem (some (.mk 4 "list" none none none none [liWitnessItem]))
      { stack := [liWitnessTop, liWitnessHeading, liWitnessRoot], edges := [] } = .ok
      { stack := [{ node := liWitnessItem, containerType := "listItem", headingLevel := none },
                  liWitnessRoot],
        edges := [{ container := liWitnessRoot.node, member := liWitnessItem }] } :=
  listItem_nondirect_full_reset liWitnessItem _ _ liWitnessTop [liWitnessHeading, liWitnessRoot]
    liWitnessRoot rfl rfl rfl rfl rfl

end Cannonball

namespace Cannonball

/-- Whether the visitor emits an edge for a node: neither an ignored type nor a
thematic break. -/
def emits (n : MdNode) : Bool :=
  !ignoreTypes.contains n.type && n.type != "thematicBreak"

/-! ### Branch equations for `visitStep` -/

theorem visitStep_ignored (n : MdNode) (p : Option MdNode) (st : St)
    (hig : ignoreTypes.contains n.type = true) :
    visitStep n p st = .ok st := by
  unfold visitStep
  rw [if_pos hig]

theorem visitStep_tb (n : MdNode) (p : Option MdNode) (st : St)
    (hty : n.type = "thematicBreak") :
    visitStep n p st = .ok { st with stack := resetToRoot st.stack } := by
  simp only [visitStep, hty]
  rfl

theorem visitStep_heading (n : MdNode) (p : Option MdNode) (st : St)
    (container : StackEntry) (tail : List StackEntry)
    (hty : n.type = "heading")
    (htrim : headingPreTrim n.depth st.stack = container :: tail) :
    visitStep n p st = .ok
      { stack := { node := n, containerType := "heading", headingLevel := n.depth }
                   :: container :: tail,
        edges := st.edges ++ [{ container := container.node, member := n }] } := by
  simp only [visitStep, hty]
  norm_num [ignoreTypes, isContainerNode, getContainerType, hty, htrim]
  try rfl

theorem visitStep_blockquote (n : MdNode) (p : Option MdNode) (st : St)
    (container : StackEntry) (tail : List StackEntry)
    (hty : n.type = "blockquote")
    (hstk : st.stack = container :: tail) :
    visitStep n p st = .ok
      { stack := { node := n, containerType := "blockquote", headingLevel := none }
                   :: container :: tail,
        edges := st.edges ++ [{ container := container.node, member := n }] } := by
  simp only [visitStep, hty, hstk]
  norm_num [ignoreTypes, isContainerNode, getContainerType, hty]
  try rfl

theorem visitStep_listItem_keep (n : MdNode) (p : Option MdNode) (st : St)
    (top : StackEntry) (rest : List StackEntry)
    (hty : n.type = "listItem")
    (hstk : st.stack = top :: rest)
    (hkeep : (top.containerType == "listItem" && !isDirectParentListItem top.node n p) = false) :
    visitStep n p st = .ok
      { stack := { node := n, containerType := "listItem", headingLevel := none } :: top :: rest,
        edges := st.edges ++ [{ container := top.node, member := n }] } := by
  simp only [visitStep, hty, hstk, hkeep]
  norm_num [ignoreTypes, isContainerNode, getContainerType, hty]
  try rfl

theorem visitStep_leaf (n : MdNode) (p : Option MdNode) (st : St)
    (top : StackEntry) (rest : List StackEntry)
    (hig : ignoreTypes.contains n.type = false)
    (htb : (n.type == "thematicBreak") = false)
    (hcon : isContainerNode n = false)
    (hstk : st.stack = top :: rest) :
    visitStep n p st = .ok { st with edges := st.edges ++ [{ container := top.node, member := n }] } := by
  simp only [visitStep, hig, htb, hcon, hstk]
  rfl

end Cannonball

namespace Cannonball

/-! ### One-step soundness of the visitor -/

theorem suffix_getLast {α : Type} (s1 s : List α) (h : List.IsSuffix s1 s) (h1 : s1 ≠ []) :
    s1.getLast? = s.getLast? := by
  obtain ⟨t, rfl⟩ := h
  rw [List.getLast?_append, List.getLast?_eq_getLast s1 h1]
  rfl

theorem isContainerNode_cases (n : MdNode) (h : isContainerNode n = true) :
    n.type = "root" ∨ n.type = "heading" ∨ n.type = "listItem" ∨ n.type = "blockquote" := by
  simp only [isContainerNode, Bool.or_eq_true, beq_iff_eq] at h
  tauto

/-- Every step of the visitor from a nonempty stack succeeds, keeps the stack
nonempty with unchanged bottom element, turns the stack into a nonempty suffix
of the old stack with at most the visited node (a container) pushed on top,
and appends exactly one edge `(top, n)` for an emitted node (none otherwise),
whose container entry comes from the old stack. -/
theorem visitStep_ok (n : MdNode) (p : Option MdNode) (st : St) (hne : st.stack ≠ []) :
    ∃ st1, visitStep n p st = .ok st1 ∧
      st1.stack ≠ [] ∧
      st1.stack.getLast? = st.stack.getLast? ∧
      (∃ s1, List.IsSuffix s1 st.stack ∧ s1 ≠ [] ∧
        (st1.stack = s1 ∨ ∃ en, en.node = n ∧ isContainerNode n = true ∧ st1.stack = en :: s1)) ∧
      (if emits n then
        ∃ c ∈ st.stack, st1.edges = st.edges ++ [{ container := c.node, member := n }]
       else st1.edges = st.edges) := by
  by_cases hig : ignoreTypes.contains n.type
  · -- ignored node: no change
    refine ⟨st, visitStep_ignored n p st hig, hne, rfl,
      ⟨st.stack, List.suffix_rfl, hne, Or.inl rfl⟩, ?_⟩
    have he : emits n = false := by rw [emits, hig]; rfl
    simp [he]
  · by_cases htb : n.type = "thematicBreak"
    · -- thematic break: reset to root
      obtain ⟨x, hx⟩ : ∃ x, st.stack.getLast? = some x := by
        cases hgl : st.stack.getLast? with
        | none => exact absurd (List.getLast?_isSome.mpr hne) (by simp [hgl])
        | some y => exact ⟨y, rfl⟩
      have hr : resetToRoot st.stack = [x] := resetToRoot_of_getLast st.stack x hx
      refine ⟨_, visitStep_tb n p st htb, ?_, ?_, ?_, ?_⟩
      · simp [hr]
      · rw [hr, hx]
        simp
      · exact ⟨[x], getLast_singleton_suffix st.stack x hx, by simp, Or.inl (by simp [hr])⟩
      · have he : emits n = false := by simp [emits, htb]
        simp [he]
    · have hem : emits n = true := by
        simp only [emits, Bool.and_eq_true, Bool.not_eq_true']
        exact ⟨by simpa using hig, by simpa using htb⟩
      by_cases hcon : isContainerNode n
      · rcases isContainerNode_cases n hcon with hty | hty | hty | hty
        · exact absurd hig (by simp [ignoreTypes, hty])
        · -- heading
          have htne := headingPreTrim_ne n.depth st.stack hne
          obtain ⟨container, tail, htrim⟩ := List.exists_cons_of_ne_nil htne
          have hsuf : List.IsSuffix (container :: tail) st.stack := by
            rw [← htrim]; exact headingPreTrim_suffix n.depth st.stack
          refine ⟨_, visitStep_heading n p st container tail hty htrim, by simp, ?_, ?_, ?_⟩
          · show (_ :: container :: tail).getLast? = _
            rw [List.getLast?_cons_cons]
            rw [← htrim, headingPreTrim_getLast n.depth st.stack hne]
          · exact ⟨container :: tail, hsuf, by simp,
              Or.inr ⟨_, rfl, hcon, rfl⟩⟩
          · rw [hem]
            exact ⟨container, hsuf.subset (by simp), rfl⟩
        · -- listItem
          obtain ⟨top, rest, hstk⟩ := List.exists_cons_of_ne_nil hne
          by_cases hkeep : (top.containerType == "listItem" && !isDirectParentListItem top.node n p) = true
          · -- full reset
            obtain ⟨x, hx⟩ : ∃ x, st.stack.getLast? = some x := by
              cases hgl : st.stack.getLast? with
              | none => exact absurd (List.getLast?_isSome.mpr hne) (by simp [hgl])
              | some y => exact ⟨y, rfl⟩
            rw [Bool.and_eq_true, beq_iff_eq, Bool.not_eq_true'] at hkeep
            have := listItem_nondirect_full_reset n p st top rest x hstk hx hty hkeep.1 hkeep.2
            refine ⟨_, this, by simp, ?_, ?_, ?_⟩
            · show (_ :: [x]).getLast? = _
              rw [List.getLast?_cons_cons, hx]
              simp
            · exact ⟨[x], getLast_singleton_suffix st.stack x hx, by simp,
                Or.inr ⟨_, rfl, hcon, rfl⟩⟩
            · rw [hem]
              exact ⟨x, (getLast_singleton_suffix st.stack x hx).subset (by simp), rfl⟩
          · -- keep stack
            rw [Bool.not_eq_true] at hkeep
            refine ⟨_, visitStep_listItem_keep n p st top rest hty hstk hkeep, by simp, ?_, ?_, ?_⟩
            · show (_ :: top :: rest).getLast? = _
              rw [List.getLast?_cons_cons, hstk]
            · exact ⟨top :: rest, hstk ▸ List.suffix_rfl, by simp,
                Or.inr ⟨_, rfl, hcon, rfl⟩⟩
            · rw [hem]
              exact ⟨top, by simp [hstk], by simp⟩
        · -- blockquote
          obtain ⟨container, tail, hstk⟩ := List.exists_cons_of_ne_nil hne
          refine ⟨_, visitStep_blockquote n p st container tail hty hstk, by simp, ?_, ?_, ?_⟩
          · show (_ :: container :: tail).getLast? = _
            rw [List.getLast?_cons_cons, hstk]
          · exact ⟨container :: tail, hstk ▸ List.suffix_rfl, by simp,
              Or.inr ⟨_, rfl, hcon, rfl⟩⟩
          · rw [hem]
            exact ⟨container, by simp [hstk], by simp⟩
      · -- non-container leaf
        obtain ⟨top, rest, hstk⟩ := List.exists_cons_of_ne_nil hne
        rw [Bool.not_eq_true] at hcon
        refine ⟨_, visitStep_leaf n p st top rest (by simpa using hig)
          (by simpa using htb) hcon hstk, hne, rfl,
          ⟨st.stack, List.suffix_rfl, hne, Or.inl rfl⟩, ?_⟩
        rw [hem]
        exact ⟨top, by simp [hstk], by simp⟩

end Cannonball

namespace Cannonball

/-- Soundness of a whole visitor run from a nonempty stack: it succeeds, the
stack stays nonempty with unchanged bottom, every final stack entry is an
initial entry or a container node visited during the run, the emitted members
are exactly the emitting visited nodes in order, and every emitted edge's
container is an initial stack node or a container node. -/
theorem runEvents_ok (evs : List (MdNode × Option MdNode)) :
    ∀ st : St, st.stack ≠ [] →
    ∃ st1, runEvents evs st = .ok st1 ∧
      st1.stack ≠ [] ∧
      st1.stack.getLast? = st.stack.getLast? ∧
      (∀ en ∈ st1.stack, en ∈ st.stack ∨ ∃ ev ∈ evs, en.node = ev.1 ∧ isContainerNode ev.1 = true) ∧
      st1.edges.map Edge.member = st.edges.map Edge.member ++ (evs.map Prod.fst).filter emits ∧
      (∀ e ∈ st1.edges, e ∈ st.edges ∨ isContainerNode e.container = true ∨
        ∃ en ∈ st.stack, e.container = en.node) := by
  induction evs with
  | nil =>
    intro st hne
    exact ⟨st, rfl, hne, rfl, fun en h => Or.inl h, by simp, fun e h => Or.inl h⟩
  | cons ev rest ih =>
    intro st hne
    obtain ⟨n, p⟩ := ev
    obtain ⟨st1, hstep, hne1, hlast1, ⟨s1, hsuf, hs1ne, hshape⟩, hedge⟩ := visitStep_ok n p st hne
    obtain ⟨st2, hrun, hne2, hlast2, hstack2, hmem2, hcont2⟩ := ih st1 hne1
    have hmem1 : ∀ en ∈ st1.stack, en ∈ st.stack ∨ (en.node = n ∧ isContainerNode n = true) := by
      intro en hen
      rcases hshape with h | ⟨en', hn', hc', h⟩
      · exact Or.inl (hsuf.subset (h ▸ hen))
      · rw [h] at hen
        rcases List.mem_cons.mp hen with h1 | h1
        · exact Or.inr ⟨h1 ▸ hn', hc'⟩
        · exact Or.inl (hsuf.subset h1)
    refine ⟨st2, ?_, hne2, hlast2.trans hlast1, ?_, ?_, ?_⟩
    · show runEvents ((n, p) :: rest) st = .ok st2
      unfold runEvents
      rw [hstep]
      exact hrun
    · intro en hen
      rcases hstack2 en hen with h | ⟨ev', hev', h⟩
      · rcases hmem1 en h with h1 | ⟨h1, h2⟩
        · exact Or.inl h1
        · exact Or.inr ⟨(n, p), by simp, h1, h2⟩
      · exact Or.inr ⟨ev', List.mem_cons_of_mem _ hev', h⟩
    · rw [hmem2]
      by_cases he : emits n
      · rw [he] at hedge
        obtain ⟨c, hc, hedges1⟩ := hedge
        rw [hedges1]
        simp [he, Edge.member]
      · rw [if_neg (by simp [he])] at hedge
        rw [hedge]
        have : emits n = false := by simpa using he
        simp [this]
    · intro e he
      rcases hcont2 e he with h | h | ⟨en, hen, h⟩
      · -- e was present after the first step
        by_cases hem : emits n
        · rw [hem] at hedge
          obtain ⟨c, hc, hedges1⟩ := hedge
          rw [hedges1] at h
          rcases List.mem_append.mp h with h1 | h1
          · exact Or.inl h1
          · simp only [List.mem_singleton] at h1
            exact Or.inr (Or.inr ⟨c, hc, by rw [h1]⟩)
        · rw [if_neg (by simp [hem])] at hedge
          exact Or.inl (hedge ▸ h)
      · exact Or.inr (Or.inl h)
      · rcases hmem1 en hen with h1 | ⟨h1, h2⟩
        · exact Or.inr (Or.inr ⟨en, h1, h⟩)
        · exact Or.inr (Or.inl (by rw [h, h1]; exact h2))
    
end Cannonball

namespace Cannonball

/-! ### The whole pass -/

mutual
theorem preorderEvents_fst (p : Option MdNode) : ∀ n : MdNode,
    (preorderEvents p n).map Prod.fst = preorderNodes n
  | .mk i t d pos ct hl cs => by
    simp only [preorderEvents, preorderNodes, List.map_cons]
    rw [preorderEventsList_fst]
theorem preorderEventsList_fst (p : MdNode) : ∀ cs : List MdNode,
    (preorderEventsList p cs).map Prod.fst = preorderNodesList cs
  | [] => rfl
  | c :: cs => by
    simp only [preorderEventsList, preorderNodesList, List.map_append]
    rw [preorderEvents_fst, preorderEventsList_fst]
end

/-- The root entry `processHierarchicalRelationships` pushes before traversal
(`rootNode.containerType = 'root'; containerStack.push(rootNode)`). -/
def rootEntry (ast : MdNode) : StackEntry :=
  { node := ast, containerType := "root", headingLevel := none }

/-- The resolution pass always succeeds — the `throw` of `getContainerType` and
the empty-stack accesses are unreachable — and the members of the emitted edges
are exactly the emitting (non-ignored, non-thematic-break) nodes in pre-order;
every edge's container is a container-typed node or the tree root itself. -/
theorem process_ok (ast : MdNode) :
    ∃ es, processHierarchicalRelationships ast = .ok es ∧
      es.map Edge.member = (preorderNodes ast).filter emits ∧
      (∀ e ∈ es, isContainerNode e.container = true ∨ e.container = ast) := by
  obtain ⟨st1, hrun, hne1, hlast1, hstk1, hmem, hcont⟩ :=
    runEvents_ok (preorderEvents none ast)
      { stack := [rootEntry ast], edges := [] } (by simp)
  refine ⟨st1.edges, ?_, ?_, ?_⟩
  · unfold processHierarchicalRelationships
    have h2 : runEvents (preorderEvents none ast)
        { stack := [{ node := ast, containerType := "root", headingLevel := none }],
          edges := [] } = Except.ok st1 := hrun
    rw [h2]
  · rw [hmem]
    simp only [List.map_nil, List.nil_append]
    rw [preorderEvents_fst]
  · intro e he
    rcases hcont e he with h | h | ⟨en, hen, h⟩
    · simp at h
    · exact Or.inl h
    · simp only [List.mem_singleton] at hen
      exact Or.inr (by rw [h, hen]; rfl)

end Cannonball

namespace Cannonball

/-- Builder for an undecorated node without position or depth. -/
def leafN (i : Nat) (t : String) (cs : List MdNode) : MdNode :=
  .mk i t none none none none cs

/-- Builder for an undecorated heading node of a given depth. -/
def headingN (i : Nat) (d : Nat) (cs : List MdNode) : MdNode :=
  .mk i "heading" (some d) none none none cs

/-- **C6.** Thematic-break isolation: (a) for every root-typed input tree the
resolution pass succeeds and no emitted edge has a thematic break as its
container or its member; (b) when the resolver processes a thematic-break node
the step emits no edge and pops the scope stack down to exactly its bottom
(Root) entry — the break itself is never pushed. -/
theorem thematicBreak_isolation :
    (∀ ast : MdNode, ast.type = "root" →
      ∃ es, processHierarchicalRelationships ast = .ok es ∧
        ∀ e ∈ es, e.container.type ≠ "thematicBreak" ∧ e.member.type ≠ "thematicBreak") ∧
    (∀ (n : MdNode) (p : Option MdNode) (st : St) (bottom : StackEntry),
      n.type = "thematicBreak" → st.stack.getLast? = some bottom →
      visitStep n p st = .ok { stack := [bottom], edges := st.edges }) := by
  constructor
  · intro ast hroot
    obtain ⟨es, hok, hmem, hcont⟩ := process_ok ast
    refine ⟨es, hok, fun e he => ⟨?_, ?_⟩⟩
    · rcases hcont e he with h | h
      · rcases isContainerNode_cases _ h with h1 | h1 | h1 | h1 <;> rw [h1] <;> decide
      · rw [h, hroot]; decide
    · have hm : e.member ∈ es.map Edge.member := List.mem_map_of_mem _ he
      rw [hmem] at hm
      have hem := List.of_mem_filter hm
      intro hTB
      unfold emits at hem
      rw [hTB] at hem
      simp at hem
  · intro n p st bottom hty hlast
    rw [visitStep_tb n p st hty, resetToRoot_of_getLast st.stack bottom hlast]

/-- Tree for the C6 witness: `## S␤---␤## T`. -/
def tbTree : MdNode :=
  leafN 0 "root" [headingN 1 2 [leafN 2 "text" []], leafN 3 "thematicBreak" [],
    headingN 4 2 [leafN 5 "text" []]]

theorem thematicBreak_isolation_witness :
    (∃ es, processHierarchicalRelationships tbTree = .ok es ∧
      ∀ e ∈ es, e.container.type ≠ "thematicBreak" ∧ e.member.type ≠ "thematicBreak") ∧
    visitStep (leafN 3 "thematicBreak" []) (some tbTree)
      { stack := [{ node := headingN 1 2 [leafN 2 "text" []], containerType := "heading",
                    headingLevel := some 2 }, rootEntry tbTree],
        edges := [] }
      = .ok { stack := [rootEntry tbTree], edges := [] } :=
  ⟨thematicBreak_isolation.1 tbTree rfl,
   thematicBreak_isolation.2 (leafN 3 "thematicBreak" []) (some tbTree) _ (rootEntry tbTree)
     rfl rfl⟩

/-- **C7.** Root stability: after running any prefix of the pre-order visit
sequence from the initial state (whose stack is exactly the Root entry pushed
at initialization), the scope stack is nonempty and its bottom element is
still that Root entry: no pop — heading pre-trim, list-item reset or
thematic-break reset — ever removes Root. -/
theorem scopeStack_never_empty (ast : MdNode)
    (evs1 evs2 : List (MdNode × Option MdNode))
    (_hsplit : preorderEvents none ast = evs1 ++ evs2) :
    ∃ st, runEvents evs1 { stack := [rootEntry ast], edges := [] } = .ok st ∧
      st.stack ≠ [] ∧ st.stack.getLast? = some (rootEntry ast) := by
  obtain ⟨st, hrun, hne, hlast, _, _, _⟩ :=
    runEvents_ok evs1 { stack := [rootEntry ast], edges := [] } (by simp)
  exact ⟨st, hrun, hne, by rw [hlast]; rfl⟩

/-- Tree for the C7 witness: a heading, a nested list, and a thematic break. -/
def c7Tree : MdNode :=
  leafN 0 "root" [headingN 1 1 [leafN 2 "text" []],
    leafN 3 "list" [leafN 4 "listItem" [leafN 5 "paragraph" []]],
    leafN 6 "thematicBreak" []]

theorem scopeStack_never_empty_witness :
    preorderEvents none c7Tree =
      (preorderEvents none c7Tree).take 4 ++ (preorderEvents none c7Tree).drop 4 ∧
    ∃ st, runEvents ((preorderEvents none c7Tree).take 4)
        { stack := [rootEntry c7Tree], edges := [] } = .ok st ∧
      st.stack ≠ [] ∧ st.stack.getLast? = some (rootEntry c7Tree) :=
  ⟨(List.take_append_drop 4 _).symm,
   scopeStack_never_empty c7Tree _ _ (List.take_append_drop 4 _).symm⟩

/-- **C5.** Single containment: for a tree with distinct node ids whose
resolution pass returns `es`, every node of the tree that is neither of an
ignored type (`root`, `list`, `text`, `strong`, `emphasis`) nor a thematic
break is the member of exactly one edge of `es`, and every ignored or
thematic-break node is the member of no edge (membership by identity, i.e.
node id). -/
theorem single_containment (ast : MdNode) (hnd : (MdNode.ids ast).Nodup)
    (es : List Edge) (hok : processHierarchicalRelationships ast = .ok es)
    (n : MdNode) (hmem : n ∈ preorderNodes ast) :
    (emits n = true → es.countP (fun e => e.member.id == n.id) = 1) ∧
    (emits n = false → es.countP (fun e => e.member.id == n.id) = 0) := by
  obtain ⟨es', hok', hmem', _⟩ := process_ok ast
  rw [hok] at hok'
  have hes : es = es' := Except.ok.inj hok'
  subst hes
  have hinj : ∀ m ∈ preorderNodes ast, m.id = n.id → m = n := by
    intro m hm he
    exact List.inj_on_of_nodup_map hnd hm hmem he
  have hcalc : es.countP (fun e => e.member.id == n.id) =
      (preorderNodes ast).countP (fun m => (m.id == n.id) && emits m) := by
    calc es.countP (fun e => e.member.id == n.id)
        = (es.map Edge.member).countP (fun m => m.id == n.id) := by
          rw [List.countP_map]; rfl
      _ = ((preorderNodes ast).filter emits).countP (fun m => m.id == n.id) := by rw [hmem']
      _ = (preorderNodes ast).countP (fun m => (m.id == n.id) && emits m) := by
          rw [List.countP_filter]
  constructor
  · intro hem
    rw [hcalc]
    have hcong : (preorderNodes ast).countP (fun m => (m.id == n.id) && emits m) =
        (preorderNodes ast).countP (fun m => m.id == n.id) := by
      refine List.countP_congr fun m hm => ?_
      simp only [Bool.and_eq_true, beq_iff_eq]
      constructor
      · exact fun h => h.1
      · intro h
        exact ⟨h, by rw [hinj m hm h, hem]⟩
    rw [hcong]
    have : (preorderNodes ast).countP (fun m => m.id == n.id) =
        ((preorderNodes ast).map MdNode.id).count n.id := by
      rw [List.count_eq_countP, List.countP_map]; rfl
    rw [this]
    exact List.count_eq_one_of_mem hnd (List.mem_map_of_mem _ hmem)
  · intro hem
    rw [hcalc]
    have hcong : (preorderNodes ast).countP (fun m => (m.id == n.id) && emits m) =
        (preorderNodes ast).countP (fun _ => false) := by
      refine List.countP_congr fun m hm => ?_
      simp only [Bool.and_eq_true, beq_iff_eq]
      constructor
      · rintro ⟨h1, h2⟩
        rw [hinj m hm h1, hem] at h2
        exact absurd h2 (by simp)
      · intro h
        exact absurd h (by simp)
    rw [hcong]
    simp [List.countP_false]

/-- Tree for the C5 witness: a heading with text and a paragraph. -/
def c5Tree : MdNode :=
  leafN 0 "root" [headingN 1 2 [leafN 2 "text" []], leafN 3 "paragraph" [leafN 4 "text" []]]

theorem single_containment_witness :
    (MdNode.ids c5Tree).Nodup ∧
    ∃ es, processHierarchicalRelationships c5Tree = .ok es ∧
      es.countP (fun e => e.member.id == 1) = 1 ∧
      es.countP (fun e => e.member.id == 4) = 0 := by
  obtain ⟨es, hok, hm, hc⟩ := process_ok c5Tree
  have h1 := single_containment c5Tree (by decide) es hok (headingN 1 2 [leafN 2 "text" []])
    (by simp [c5Tree, preorderNodes, preorderNodesList, leafN, headingN])
  have h4 := single_containment c5Tree (by decide) es hok (leafN 4 "text" [])
    (by simp [c5Tree, preorderNodes, preorderNodesList, leafN, headingN])
  exact ⟨by decide, es, hok, h1.1 rfl, h4.2 rfl⟩

end Cannonball

namespace Cannonball

/-- Tree exhibiting the missing fail-fast of C3: a heading **without** a
`depth` field followed by a heading of depth 1. -/
def noDepthTree : MdNode :=
  leafN 0 "root" [.mk 1 "heading" none none none none [], headingN 2 1 []]

/-- **C3 (code bug).** The resolver does **not** fail fast on a malformed
heading: on a tree containing a heading whose `depth` field is missing it
completes successfully and keeps emitting edges, silently treating the missing
level as `0` in later comparisons (`topContainer.headingLevel || 0`), so the
depth-1 heading even nests under the depth-less one (`0 < 1`).  The only
contract error in the pass, the `getContainerType` throw, is unreachable
because the call is guarded by `isContainerNode`.  This contradicts the spec's
stated failure semantics (fail fast on a heading without a depth). -/
theorem heading_without_depth_no_failfast :
    processHierarchicalRelationships noDepthTree = .ok
      [{ container := noDepthTree, member := .mk 1 "heading" none none none none [] },
       { container := .mk 1 "heading" none none none none [], member := headingN 2 1 [] }] := rfl

end Cannonball

namespace Cannonball

/-! ### Support for the heading nesting law -/

theorem visitStep_edges (n : MdNode) (p : Option MdNode) (st st1 : St)
    (h : visitStep n p st = .ok st1) : ∃ tail, st1.edges = st.edges ++ tail := by
  by_cases hne : st.stack = []
  · unfold visitStep at h
    rw [hne] at h
    simp only [headingPreTrim, resetToRoot, ite_self] at h
    repeat' split at h
    all_goals
      first
      | exact Except.noConfusion h
      | (cases h; exact ⟨[], by simp⟩)
  · obtain ⟨st1', hstep, _, _, _, hedge⟩ := visitStep_ok n p st hne
    rw [hstep] at h
    cases h
    by_cases hem : emits n
    · rw [hem] at hedge
      obtain ⟨c, _, he⟩ := hedge
      exact ⟨_, he⟩
    · rw [if_neg (by simp [hem])] at hedge
      exact ⟨[], by simp [hedge]⟩

theorem runEvents_edges_mono (evs : List (MdNode × Option MdNode)) :
    ∀ st st1 : St, runEvents evs st = .ok st1 → ∃ tail, st1.edges = st.edges ++ tail
  | st, st1 => by
    intro h
    match evs, h with
    | [], h => cases h; exact ⟨[], by simp⟩
    | (n, p) :: rest, h =>
      rw [runEvents] at h
      cases hstep : visitStep n p st with
      | error e => rw [hstep] at h; exact Except.noConfusion h
      | ok stm =>
        rw [hstep] at h
        obtain ⟨t1, ht1⟩ := visitStep_edges n p st stm hstep
        obtain ⟨t2, ht2⟩ := runEvents_edges_mono rest stm st1 h
        exact ⟨t1 ++ t2, by rw [ht2, ht1, List.append_assoc]⟩

theorem runEvents_append (a b : List (MdNode × Option MdNode)) :
    ∀ st : St, runEvents (a ++ b) st =
      match runEvents a st with
      | .error e => .error e
      | .ok st1 => runEvents b st1 := by
  induction a with
  | nil => intro st; rfl
  | cons ev rest ih =>
    intro st
    obtain ⟨n, p⟩ := ev
    show runEvents ((n, p) :: (rest ++ b)) st = _
    rw [runEvents]
    cases hstep : visitStep n p st with
    | error e => rw [runEvents, hstep]
    | ok stm =>
      rw [runEvents, hstep]
      show runEvents (rest ++ b) stm = _
      rw [ih stm]

end Cannonball

namespace Cannonball

theorem visitStep_benign (n : MdNode) (p : Option MdNode) (st : St) (hne : st.stack ≠ [])
    (h1 : n.type ≠ "heading") (h2 : n.type ≠ "thematicBreak") (h3 : n.type ≠ "listItem") :
    ∃ st1, visitStep n p st = .ok st1 ∧
      (st1.stack = st.stack ∨
        st1.stack = { node := n, containerType := "blockquote", headingLevel := none }
          :: st.stack) := by
  by_cases hig : ignoreTypes.contains n.type
  · exact ⟨st, visitStep_ignored n p st hig, Or.inl rfl⟩
  · by_cases hbq : n.type = "blockquote"
    · obtain ⟨c, t, hstk⟩ := List.exists_cons_of_ne_nil hne
      exact ⟨_, visitStep_blockquote n p st c t hbq hstk, Or.inr (by rw [hstk])⟩
    · have hroot : n.type ≠ "root" := by
        intro h
        exact hig (by rw [h]; decide)
      have hcon : isContainerNode n = false := by
        simp only [isContainerNode, Bool.or_eq_false_iff, beq_eq_false_iff_ne, ne_eq]
        exact ⟨⟨⟨hroot, h1⟩, h3⟩, hbq⟩
      obtain ⟨c, t, hstk⟩ := List.exists_cons_of_ne_nil hne
      exact ⟨_, visitStep_leaf n p st c t (by simpa using hig)
        (beq_eq_false_iff_ne.mpr h2) hcon hstk, Or.inl rfl⟩

/-- Running the visitor over a span of nodes that contains no heading, no
thematic break and no list item never pops the stack: it only pushes
blockquote entries on top. -/
theorem runEvents_benign (l : List (MdNode × Option MdNode)) :
    ∀ st : St, st.stack ≠ [] →
    (∀ ev ∈ l, ev.1.type ≠ "heading" ∧ ev.1.type ≠ "thematicBreak" ∧ ev.1.type ≠ "listItem") →
    ∃ st1 bqs, runEvents l st = .ok st1 ∧
      st1.stack = bqs ++ st.stack ∧
      (∀ b ∈ bqs, b.containerType = "blockquote") := by
  induction l with
  | nil => exact fun st hne _ => ⟨st, [], rfl, by simp, by simp⟩
  | cons ev rest ih =>
    intro st hne hb
    obtain ⟨n, p⟩ := ev
    obtain ⟨h1, h2, h3⟩ := hb (n, p) (by simp)
    obtain ⟨stm, hstep, hshape⟩ := visitStep_benign n p st hne h1 h2 h3
    have hnem : stm.stack ≠ [] := by
      rcases hshape with h | h <;> simp [h, hne]
    obtain ⟨st1, bqs, hrun, hstk, hbq⟩ :=
      ih stm hnem (fun e he => hb e (List.mem_cons_of_mem _ he))
    have hrun2 : runEvents ((n, p) :: rest) st = .ok st1 := by
      rw [runEvents, hstep]; exact hrun
    rcases hshape with h | h
    · exact ⟨st1, bqs, hrun2, by rw [hstk, h], hbq⟩
    · refine ⟨st1, bqs ++ [⟨n, "blockquote", none⟩], hrun2, ?_, ?_⟩
      · rw [hstk, h, List.append_assoc]
        rfl
      · intro b hbmem
        rcases List.mem_append.mp hbmem with hm | hm
        · exact hbq b hm
        · simp only [List.mem_singleton] at hm
          rw [hm]

/-- Effect of the heading pre-trim on a stack of blockquote entries above a
heading entry above a nonempty rest: the blockquotes are popped, then the
heading entry is kept iff its level is strictly smaller than the incoming
depth, else popping continues in the rest. -/
theorem headingPreTrim_cons_cons (d : Option Nat) (top x : StackEntry)
    (rest : List StackEntry) :
    headingPreTrim d (top :: x :: rest) =
      if top.containerType == "heading" then
        if jsLtOpt (top.headingLevel.getD 0) d then top :: x :: rest
        else headingPreTrim d (x :: rest)
      else if top.containerType == "root" then top :: x :: rest
      else headingPreTrim d (x :: rest) := rfl

theorem headingPreTrim_through_bqs (d : Option Nat) (bqs : List StackEntry)
    (h1e : StackEntry) (rest : List StackEntry)
    (hbq : ∀ b ∈ bqs, b.containerType = "blockquote")
    (hh : h1e.containerType = "heading") (hrest : rest ≠ []) :
    headingPreTrim d (bqs ++ h1e :: rest) =
      if jsLtOpt (h1e.headingLevel.getD 0) d then h1e :: rest
      else headingPreTrim d rest := by
  induction bqs with
  | nil =>
    obtain ⟨r0, rr, hr⟩ := List.exists_cons_of_ne_nil hrest
    subst hr
    show headingPreTrim d (h1e :: r0 :: rr) = _
    rw [headingPreTrim_cons_cons]
    rw [if_pos (show (h1e.containerType == "heading") = true by rw [hh]; rfl)]
  | cons b bqs ih =>
    have hbqb : b.containerType = "blockquote" := hbq b (by simp)
    have hne2 : bqs ++ h1e :: rest ≠ [] := by simp
    obtain ⟨y, ys, hy⟩ := List.exists_cons_of_ne_nil hne2
    show headingPreTrim d (b :: (bqs ++ h1e :: rest)) = _
    rw [hy, headingPreTrim_cons_cons]
    rw [if_neg (show ¬(b.containerType == "heading") = true by rw [hbqb]; decide),
        if_neg (show ¬(b.containerType == "root") = true by rw [hbqb]; decide)]
    rw [← hy]
    exact ih (fun x hx => hbq x (List.mem_cons_of_mem _ hx))

end Cannonball

namespace Cannonball

theorem preorderEvents_eq (p : Option MdNode) : ∀ n : MdNode,
    preorderEvents p n = (n, p) :: preorderEventsList n n.children
  | .mk _ _ _ _ _ _ _ => rfl

theorem process_run (ast : MdNode) (es : List Edge)
    (hok : processHierarchicalRelationships ast = .ok es) :
    ∃ stF, runEvents (preorderEvents none ast) { stack := [rootEntry ast], edges := [] }
      = .ok stF ∧ stF.edges = es := by
  unfold processHierarchicalRelationships at hok
  cases hfin : runEvents (preorderEvents none ast)
      { stack := [rootEntry ast], edges := [] } with
  | error e =>
    rw [show runEvents (preorderEvents none ast)
        { stack := [{ node := ast, containerType := "root", headingLevel := none }],
          edges := [] } = Except.error e from hfin] at hok
    exact Except.noConfusion hok
  | ok stF =>
    rw [show runEvents (preorderEvents none ast)
        { stack := [{ node := ast, containerType := "root", headingLevel := none }],
          edges := [] } = Except.ok stF from hfin] at hok
    exact ⟨stF, rfl, Except.ok.inj hok⟩

theorem runEvents_append_ok (a b : List (MdNode × Option MdNode)) (st st1 : St)
    (h : runEvents a st = .ok st1) :
    runEvents (a ++ b) st = runEvents b st1 := by
  rw [runEvents_append, h]

theorem runEvents_cons_ok (n : MdNode) (p : Option MdNode)
    (evs : List (MdNode × Option MdNode)) (st stm : St)
    (h : visitStep n p st = .ok stm) :
    runEvents ((n, p) :: evs) st = runEvents evs stm := by
  rw [runEvents, h]

/-- Every node with distinct-id tree that emits is the member of exactly one
edge of the pass (counting by node id). -/
theorem member_count_one (ast : MdNode) (hnd : (MdNode.ids ast).Nodup)
    (es : List Edge) (hok : processHierarchicalRelationships ast = .ok es)
    (n : MdNode) (hmem : n ∈ preorderNodes ast) (hem : emits n = true) :
    es.countP (fun e => e.member.id == n.id) = 1 := by
  obtain ⟨es', hok', hmem', _⟩ := process_ok ast
  rw [hok] at hok'
  have hes : es = es' := Except.ok.inj hok'
  subst hes
  have hinj : ∀ m ∈ preorderNodes ast, m.id = n.id → m = n := by
    intro m hm he
    exact List.inj_on_of_nodup_map hnd hm hmem he
  have hcalc : es.countP (fun e => e.member.id == n.id) =
      (preorderNodes ast).countP (fun m => (m.id == n.id) && emits m) := by
    calc es.countP (fun e => e.member.id == n.id)
        = (es.map Edge.member).countP (fun m => m.id == n.id) := by
          rw [List.countP_map]; rfl
      _ = ((preorderNodes ast).filter emits).countP (fun m => m.id == n.id) := by rw [hmem']
      _ = (preorderNodes ast).countP (fun m => (m.id == n.id) && emits m) := by
          rw [List.countP_filter]
  rw [hcalc]
  have hcong : (preorderNodes ast).countP (fun m => (m.id == n.id) && emits m) =
      (preorderNodes ast).countP (fun m => m.id == n.id) := by
    refine List.countP_congr fun m hm => ?_
    simp only [Bool.and_eq_true, beq_iff_eq]
    exact ⟨fun h => h.1, fun h => ⟨h, by rw [hinj m hm h, hem]⟩⟩
  rw [hcong]
  have hq : (preorderNodes ast).countP (fun m => m.id == n.id) =
      ((preorderNodes ast).map MdNode.id).count n.id := by
    rw [List.count_eq_countP, List.countP_map]; rfl
  rw [hq]
  exact List.count_eq_one_of_mem hnd (List.mem_map_of_mem _ hmem)

end Cannonball

namespace Cannonball

/-- **C2 (amended).** Heading nesting law with the side conditions the code
actually requires: in a root-typed tree with distinct node ids, for headings
`h1` (depth `d1`) appearing before `h2` (depth `d2`) in pre-order with **no
intervening heading, thematic break or list item**, the unique edge emitted
for `h2` has container `h1` iff `d2 > d1`.  (The original side condition —
only excluding intervening headings of depth ≤ d1 — is refuted by
`heading_nesting_law_counterexample`: deeper intervening headings, thematic
breaks and sibling list items all change `h2`'s container.) -/
theorem heading_nesting_law_amended (ast : MdNode)
    (hroot : ast.type = "root") (hnd : (MdNode.ids ast).Nodup)
    (l1 l2 l3 : List (MdNode × Option MdNode))
    (h1 h2 : MdNode) (p1 p2 : Option MdNode) (d1 d2 : Nat)
    (hsplit : preorderEvents none ast = l1 ++ (h1, p1) :: l2 ++ (h2, p2) :: l3)
    (hty1 : h1.type = "heading") (hty2 : h2.type = "heading")
    (hd1 : h1.depth = some d1) (hd2 : h2.depth = some d2)
    (hbenign : ∀ ev ∈ l2, ev.1.type ≠ "heading" ∧ ev.1.type ≠ "thematicBreak" ∧
      ev.1.type ≠ "listItem")
    (es : List Edge) (hok : processHierarchicalRelationships ast = .ok es) :
    ∃ e ∈ es, e.member.id = h2.id ∧ (e.container.id = h1.id ↔ d1 < d2) ∧
      ∀ e' ∈ es, e'.member.id = h2.id → e' = e := by
  -- decompose the run along the split
  obtain ⟨stF, hfin, hesF⟩ := process_run ast es hok
  have hsplit2 : preorderEvents none ast =
      l1 ++ ((h1, p1) :: (l2 ++ ((h2, p2) :: l3))) := by
    rw [hsplit]
    simp only [List.append_assoc, List.cons_append]
  rw [hsplit2] at hfin
  obtain ⟨stA, hA, hneA, hlastA, hstkA, hmemA, hcontA⟩ :=
    runEvents_ok l1 { stack := [rootEntry ast], edges := [] } (by simp)
  rw [runEvents_append_ok l1 _ _ stA hA] at hfin
  have htrimAne := headingPreTrim_ne h1.depth stA.stack hneA
  obtain ⟨c1, t1, htrimA⟩ := List.exists_cons_of_ne_nil htrimAne
  rw [runEvents_cons_ok h1 p1 _ stA _ (visitStep_heading h1 p1 stA c1 t1 hty1 htrimA)] at hfin
  obtain ⟨stC, bqs, hC, hstkC, hbqs⟩ :=
    runEvents_benign l2
      { stack := { node := h1, containerType := "heading", headingLevel := h1.depth }
          :: c1 :: t1,
        edges := stA.edges ++ [{ container := c1.node, member := h1 }] }
      (by simp) hbenign
  rw [runEvents_append_ok l2 _ _ stC hC] at hfin
  -- the id bookkeeping: h1's id is fresh relative to the stack at its visit
  have hids : (preorderEvents none ast).map (fun ev => ev.1.id) = MdNode.ids ast := by
    rw [MdNode.ids, ← preorderEvents_fst none ast, List.map_map]
    rfl
  have hnd2 : ((l1 ++ (h1, p1) :: l2 ++ (h2, p2) :: l3).map
      (fun ev => ev.1.id)).Nodup := by
    rw [← hsplit, hids]
    exact hnd
  simp only [List.map_append, List.map_cons] at hnd2
  obtain ⟨hndl1m, hndrest, hdisjo⟩ := List.nodup_append.mp hnd2
  have h1_not_l1 : h1.id ∉ l1.map (fun ev => ev.1.id) := by
    obtain ⟨hnda, hndb, hdisj2⟩ := List.nodup_append.mp hndl1m
    intro hm
    exact hdisj2 hm (by simp)
  have ast_in_l1 : ast.id ∈ l1.map (fun ev => ev.1.id) := by
    have hs := hsplit2
    rw [preorderEvents_eq] at hs
    cases l1 with
    | nil =>
      simp only [List.nil_append] at hs
      injection hs with hh htl
      injection hh with ha hb
      rw [ha, hty1] at hroot
      exact absurd hroot (by decide)
    | cons ev0 l1' =>
      simp only [List.cons_append] at hs
      injection hs with hh htl
      rw [← hh]
      simp
  have hstack_id : ∀ en ∈ stA.stack, en.node.id ≠ h1.id := by
    intro en hen heq
    rcases hstkA en hen with hin | ⟨ev, hev, hevn, _⟩
    · have : en = rootEntry ast := by simpa using hin
      rw [this] at heq
      have : ast.id = h1.id := heq
      rw [← this] at h1_not_l1
      exact h1_not_l1 ast_in_l1
    · have : en.node.id ∈ l1.map (fun ev => ev.1.id) := by
        rw [hevn]
        exact List.mem_map_of_mem _ hev
      rw [heq] at this
      exact h1_not_l1 this
  -- the edge h2 receives
  have hstkC2 : stC.stack = bqs ++
      ({ node := h1, containerType := "heading", headingLevel := h1.depth } :: c1 :: t1) :=
    hstkC
  have hgl : ({ node := h1, containerType := "heading", headingLevel := h1.depth }
      : StackEntry).headingLevel.getD 0 = d1 := by
    show h1.depth.getD 0 = d1
    rw [hd1]
    rfl
  have htrimC0 := headingPreTrim_through_bqs h2.depth bqs
    { node := h1, containerType := "heading", headingLevel := h1.depth }
    (c1 :: t1) hbqs rfl (by simp)
  rw [hgl, hd2] at htrimC0
  have hmain : ∃ e, e ∈ es ∧ e.member = h2 ∧ (e.container.id = h1.id ↔ d1 < d2) := by
    by_cases hlt : d1 < d2
    · have hjs : jsLtOpt d1 (some d2) = true := by simp [jsLtOpt, hlt]
      rw [if_pos hjs] at htrimC0
      have htrimC : headingPreTrim h2.depth stC.stack =
          ({ node := h1, containerType := "heading", headingLevel := h1.depth } : StackEntry)
            :: c1 :: t1 := by
        rw [hd2, hstkC2]
        exact htrimC0
      rw [runEvents_cons_ok h2 p2 l3 stC _
        (visitStep_heading h2 p2 stC _ (c1 :: t1) hty2 htrimC)] at hfin
      obtain ⟨tailE, htailE⟩ := runEvents_edges_mono l3 _ stF hfin
      refine ⟨{ container := h1, member := h2 }, ?_, rfl, ?_⟩
      · rw [← hesF, htailE]
        apply List.mem_append_left
        simp
      · exact ⟨fun _ => hlt, fun _ => rfl⟩
    · have hjs : jsLtOpt d1 (some d2) = false := by simp [jsLtOpt, hlt]
      rw [if_neg (by simp [hjs])] at htrimC0
      have htrim2ne := headingPreTrim_ne (some d2) (c1 :: t1) (by simp)
      obtain ⟨c2, t2, htrim2⟩ := List.exists_cons_of_ne_nil htrim2ne
      have htrimC : headingPreTrim h2.depth stC.stack = c2 :: t2 := by
        rw [hd2, hstkC2, htrimC0]
        exact htrim2
      rw [runEvents_cons_ok h2 p2 l3 stC _
        (visitStep_heading h2 p2 stC c2 t2 hty2 htrimC)] at hfin
      obtain ⟨tailE, htailE⟩ := runEvents_edges_mono l3 _ stF hfin
      have hc2mem : c2 ∈ stA.stack := by
        have hs1 : List.IsSuffix (c2 :: t2) (c1 :: t1) := by
          rw [← htrim2]
          exact headingPreTrim_suffix (some d2) (c1 :: t1)
        have hs2 : List.IsSuffix (c1 :: t1) stA.stack := by
          rw [← htrimA]
          exact headingPreTrim_suffix h1.depth stA.stack
        exact hs2.subset (hs1.subset (by simp))
      have hne_id : c2.node.id ≠ h1.id := hstack_id c2 hc2mem
      refine ⟨{ container := c2.node, member := h2 }, ?_, rfl, ?_⟩
      · rw [← hesF, htailE]
        apply List.mem_append_left
        simp
      · exact ⟨fun h => absurd h hne_id, fun h => absurd h hlt⟩
  -- uniqueness of the h2 edge
  obtain ⟨eh2, hmemes, hmem_eq, hiff⟩ := hmain
  have hm2 : h2 ∈ preorderNodes ast := by
    have hin : (h2, p2) ∈ preorderEvents none ast := by
      rw [hsplit]
      simp
    have := List.mem_map_of_mem Prod.fst hin
    rw [preorderEvents_fst] at this
    exact this
  have hem2 : emits h2 = true := by
    unfold emits
    rw [hty2]
    rfl
  have hflen : (es.filter (fun e => e.member.id == h2.id)).length = 1 := by
    rw [← List.countP_eq_length_filter]
    exact member_count_one ast hnd es hok h2 hm2 hem2
  obtain ⟨estar, hestar⟩ := List.length_eq_one.mp hflen
  have hin2 : eh2 ∈ es.filter (fun e => e.member.id == h2.id) :=
    List.mem_filter.mpr ⟨hmemes, by rw [hmem_eq]; simp⟩
  rw [hestar] at hin2
  have heqstar : eh2 = estar := by simpa using hin2
  refine ⟨eh2, hmemes, by rw [hmem_eq], hiff, ?_⟩
  intro e' he' hmm
  have hin3 : e' ∈ es.filter (fun e => e.member.id == h2.id) :=
    List.mem_filter.mpr ⟨he', by simp [hmm]⟩
  rw [hestar] at hin3
  have : e' = estar := by simpa using hin3
  rw [this, ← heqstar]

end Cannonball

namespace Cannonball

/-- `# A␤## B␤### C`: root(0), headings 1 (depth 1), 2 (depth 2), 3 (depth 3). -/
def cexTreeDeep : MdNode :=
  leafN 0 "root" [headingN 1 1 [], headingN 2 2 [], headingN 3 3 []]

/-- `# A␤---␤## B`: root(0), heading 1 (depth 1), thematic break 2, heading 3 (depth 2). -/
def cexTreeBreak : MdNode :=
  leafN 0 "root" [headingN 1 1 [], leafN 2 "thematicBreak" [], headingN 3 2 []]

/-- `# A␤- a␤- b␤## B`: root(0), heading 1 (depth 1), a list (2) with sibling
items 3 and 5 (paragraphs 4, 6), heading 7 (depth 2). -/
def cexTreeList : MdNode :=
  leafN 0 "root" [headingN 1 1 [],
    leafN 2 "list" [leafN 3 "listItem" [leafN 4 "paragraph" []],
      leafN 5 "listItem" [leafN 6 "paragraph" []]],
    headingN 7 2 []]

/-- **C2 is false as stated.**  Three refutations, as `(container, member)` id
pairs of the emitted edges:
* `cexTreeDeep`: take `h1` = node 1 (depth 1) and `h2` = node 3 (depth 3); the
  only intervening heading (node 2) has depth 2 ≰ 1, and `d2 = 3 > 1 = d1`, so
  the claim requires node 3's edge to have container node 1 — but the edge is
  `(2, 3)`.
* `cexTreeBreak`: take `h1` = node 1 (depth 1), `h2` = node 3 (depth 2); there
  is no intervening heading and `2 > 1`, so the claim requires container
  node 1 — but the thematic break resets the stack and the edge is `(0, 3)`.
* `cexTreeList`: take `h1` = node 1 (depth 1), `h2` = node 7 (depth 2); no
  intervening heading and `2 > 1`, so the claim requires container node 1 —
  but the sibling list item's full reset dropped the heading scope and the
  edge is `(0, 7)`. -/
theorem heading_nesting_law_counterexample :
    ((processHierarchicalRelationships cexTreeDeep).map (fun es => es.map Edge.ids) =
      .ok [(0, 1), (1, 2), (2, 3)]) ∧
    ((processHierarchicalRelationships cexTreeBreak).map (fun es => es.map Edge.ids) =
      .ok [(0, 1), (0, 3)]) ∧
    ((processHierarchicalRelationships cexTreeList).map (fun es => es.map Edge.ids) =
      .ok [(0, 1), (1, 3), (3, 4), (0, 5), (5, 6), (0, 7)]) :=
  ⟨rfl, rfl, rfl⟩

/-- Heading 1, depth 1, for the C2 witness tree. -/
def wH1 : MdNode := headingN 1 1 [leafN 2 "text" []]

/-- A blockquote between the two headings of the C2 witness tree. -/
def wBQ : MdNode := leafN 3 "blockquote" [leafN 4 "paragraph" []]

/-- Heading 5, depth 2, for the C2 witness tree. -/
def wH2 : MdNode := headingN 5 2 []

/-- C2 witness tree: `# H1␤> quote␤## H2`. -/
def wTree : MdNode := leafN 0 "root" [wH1, wBQ, wH2]

theorem heading_nesting_law_amended_witness :
    ∃ es, processHierarchicalRelationships wTree = .ok es ∧
      ∃ e ∈ es, e.member.id = wH2.id ∧ (e.container.id = wH1.id ↔ 1 < 2) ∧
        ∀ e' ∈ es, e'.member.id = wH2.id → e' = e := by
  obtain ⟨es, hok, hm, hc⟩ := process_ok wTree
  exact ⟨es, hok, heading_nesting_law_amended wTree rfl (by decide)
    [(wTree, none)]
    [(leafN 2 "text" [], some wH1), (wBQ, some wTree), (leafN 4 "paragraph" [], some wBQ)]
    [] wH1 wH2 (some wTree) (some wTree) 1 2 rfl rfl rfl rfl rfl
    (by decide) es hok⟩

end Cannonball

namespace Cannonball

/-! ### Cursor lookup and context extraction -/

/-- `isNodeAtPosition(node, cursor)`: whether the (1-based) cursor coordinate
lies within the node's span. -/
def isNodeAtPosition (n : MdNode) (line column : Int) : Bool :=
  match n.position with
  | none => false
  | some pos =>
    if line < pos.start.line || line > pos.stop.line then false
    else if line == pos.start.line && column < pos.start.column then false
    else if line == pos.stop.line && column > pos.stop.column then false
    else true

/-- `calculateNodeArea(node)`: `none` models the `Infinity` returned for a
node without a position. -/
def calculateNodeArea (n : MdNode) : Option Int :=
  match n.position with
  | none => none
  | some pos =>
    if pos.stop.line > pos.start.line then
      some ((pos.stop.line - pos.start.line) * 1000 + (pos.stop.column - pos.start.column))
    else
      some (pos.stop.column - pos.start.column)

/-- JavaScript `<` on `number | Infinity` (`none` = `Infinity`): `Infinity`
is smaller than nothing, and every finite number is smaller than `Infinity`. -/
def ltInfinity (a b : Option Int) : Bool :=
  match a, b with
  | none, _ => false
  | some _, none => true
  | some x, some y => x < y

/-- The body of `visitNode` in `findNodeAtCursor`: keep the first node seen
whose area is strictly smaller than the best so far, among nodes covering the
cursor. -/
def cursorStep (line column : Int) (acc : Option MdNode × Option Int) (n : MdNode) :
    Option MdNode × Option Int :=
  if isNodeAtPosition n line column && ltInfinity (calculateNodeArea n) acc.2 then
    (some n, calculateNodeArea n)
  else acc

/-- `findNodeAtCursor(ast, cursorPosition)`: converts the 0-based Obsidian
cursor to 1-based line/column and scans the tree in pre-order, keeping the
node with the smallest area covering the cursor (first found wins on ties). -/
def findNodeAtCursor (ast : MdNode) (cursorLine cursorCh : Int) : Option MdNode :=
  ((preorderNodes ast).foldl (cursorStep (cursorLine + 1) (cursorCh + 1)) (none, none)).1

/-- JavaScript `Array.prototype.slice` index clamping: a negative index counts
from the end (clamped at 0), a nonnegative one is clamped at the length. -/
def jsSliceIndex (len : Nat) (x : Int) : Nat :=
  if x < 0 then (x + len).toNat else min x.toNat len

/-- JavaScript `l.slice(a, b)`. -/
def jsSlice {α : Type} (l : List α) (a b : Int) : List α :=
  (l.take (jsSliceIndex l.length b)).drop (jsSliceIndex l.length a)

/-- `contentFromNode(node, markdownContent)`: the lines of the content from
the node's start line to its end line (inclusive, 1-based), rejoined with
newlines; `""` for a node without position. -/
def contentFromNode (n : MdNode) (markdownContent : String) : String :=
  match n.position with
  | none => ""
  | some pos =>
    String.intercalate "\n"
      (jsSlice (markdownContent.splitOn "\n") (pos.start.line - 1) pos.stop.line)

/- `visitParents(tree, test, visitor, true)` as used by `buildContextFromNode`
and a test matching only the target node (by reference, modelled by id): a
pre-order search visiting later siblings first (reverse mode) that returns the
ancestor list (root first) of the first match, `none` when the target does not
occur.  `anc` accumulates the ancestors of the node currently visited. -/
mutual
def findAncestors (targetId : Nat) (anc : List MdNode) : MdNode → Option (List MdNode)
  | .mk i t d p ct hl cs =>
    if i == targetId then some anc
    else findAncestorsList targetId (anc ++ [.mk i t d p ct hl cs]) cs
def findAncestorsList (targetId : Nat) (anc : List MdNode) :
    List MdNode → Option (List MdNode)
  | [] => none
  | c :: rest =>
    match findAncestorsList targetId anc rest with
    | some r => some r
    | none => findAncestors targetId anc c
end

/-- `buildContextFromNode(tree, nodeAtCursor, markdownContent)`: empty string
without a node or node position; the whole document at the root (no
ancestors); the node's own span for a direct child of root (one ancestor);
otherwise the span of `ancestors[1]`. -/
def buildContextFromNode (tree : MdNode) (nodeAtCursor : Option MdNode)
    (markdownContent : String) : String :=
  match nodeAtCursor with
  | none => ""
  | some n =>
    match n.position with
    | none => ""
    | some _ =>
      match (findAncestors n.id [] tree).getD [] with
      | [] => markdownContent
      | [_] => contentFromNode n markdownContent
      | _ :: a1 :: _ => contentFromNode a1 markdownContent

/-- **C10.** When `buildContext` is given no node at all, or a node carrying no
position information, it returns the empty string (no exception, and not the
whole document). -/
theorem buildContext_empty_on_missing (tree : MdNode) (content : String) :
    buildContextFromNode tree none content = "" ∧
    ∀ n : MdNode, n.position = none → buildContextFromNode tree (some n) content = "" := by
  refine ⟨rfl, fun n hn => ?_⟩
  simp [buildContextFromNode, hn]

theorem buildContext_empty_on_missing_witness :
    buildContextFromNode (leafN 0 "root" [leafN 1 "paragraph" []]) none "# doc" = "" ∧
    buildContextFromNode (leafN 0 "root" [leafN 1 "paragraph" []])
      (some (leafN 1 "paragraph" [])) "# doc" = "" :=
  ⟨(buildContext_empty_on_missing _ "# doc").1,
   (buildContext_empty_on_missing _ "# doc").2 (leafN 1 "paragraph" []) rfl⟩

end Cannonball

namespace Cannonball

/-- Single-line node covering columns 1–1002 of line 1 (area 1001). -/
def wideChild : MdNode :=
  .mk 1 "paragraph" none (some ⟨⟨1, 1⟩, ⟨1, 1002⟩⟩) none none []

/-- Multi-line root spanning line 1 column 1 to line 2 column 1 (area
`1*1000 + 0 = 1000`). -/
def tallTree : MdNode :=
  .mk 0 "root" none (some ⟨⟨1, 1⟩, ⟨2, 1⟩⟩) none none [wideChild]

/-- **C4 is false as stated**: a multi-line span is *not* always scored larger
than a single-line span, and `findNodeAtCursor` *can* return a multi-line node
although a single-line node covers the position.  In `tallTree` the multi-line
root has area `1*1000 + 0 = 1000` while its single-line child spanning 1001
columns has area `1001`; at cursor `(0, 0)` both cover the position and the
root (a multi-line node) is returned. -/
theorem cursor_area_counterexample :
    calculateNodeArea tallTree = some 1000 ∧
    calculateNodeArea wideChild = some 1001 ∧
    isNodeAtPosition wideChild 1 1 = true ∧
    findNodeAtCursor tallTree 0 0 = some tallTree :=
  ⟨rfl, rfl, rfl, rfl⟩

theorem ltInfinity_trans_not (a b c : Option Int)
    (h1 : ltInfinity a b = false) (h2 : ltInfinity c b = true) :
    ltInfinity a c = false := by
  match a, b, c with
  | none, _, _ => rfl
  | some x, none, _ => simp [ltInfinity] at h1
  | some x, some y, none => simp [ltInfinity] at h2
  | some x, some y, some z =>
    simp only [ltInfinity, decide_eq_false_iff_not, not_lt] at h1 ⊢
    simp only [ltInfinity, decide_eq_true_eq] at h2
    omega

theorem cursorStep_not_lt (line column : Int) (acc : Option MdNode × Option Int)
    (n : MdNode) (a : Option Int) (h : ltInfinity a acc.2 = false) :
    ltInfinity a (cursorStep line column acc n).2 = false := by
  unfold cursorStep
  split
  · next hcond =>
    have hlt : ltInfinity (calculateNodeArea n) acc.2 = true :=
      (Bool.and_eq_true _ _ |>.mp hcond).2
    exact ltInfinity_trans_not a acc.2 (calculateNodeArea n) h hlt
  · exact h

theorem cursorFold_not_lt (line column : Int) (l : List MdNode) :
    ∀ (acc : Option MdNode × Option Int) (a : Option Int),
    ltInfinity a acc.2 = false →
    ltInfinity a (l.foldl (cursorStep line column) acc).2 = false := by
  induction l with
  | nil => exact fun acc a h => h
  | cons m rest ih =>
    intro acc a h
    exact ih (cursorStep line column acc m) a (cursorStep_not_lt line column acc m a h)

/-- Every cursor-covering node of the scanned list bounds the final best area
from below (in the JavaScript `<` order). -/
theorem cursorFold_covers (line column : Int) (l : List MdNode) :
    ∀ (acc : Option MdNode × Option Int) (n : MdNode), n ∈ l →
    isNodeAtPosition n line column = true →
    ltInfinity (calculateNodeArea n) (l.foldl (cursorStep line column) acc).2 = false := by
  induction l with
  | nil => intro acc n hn; exact absurd hn (by simp)
  | cons m rest ih =>
    intro acc n hn hcov
    rcases List.mem_cons.mp hn with rfl | hn2
    · -- after processing n itself the best is not above n's area, and stays so
      show ltInfinity (calculateNodeArea n)
        (rest.foldl (cursorStep line column) (cursorStep line column acc n)).2 = false
      apply cursorFold_not_lt
      unfold cursorStep
      split
      · show ltInfinity (calculateNodeArea n) (calculateNodeArea n) = false
        match calculateNodeArea n with
        | none => rfl
        | some x => simp [ltInfinity]
      · next hcond =>
        rw [hcov, Bool.true_and] at hcond
        simpa using hcond
    · exact ih (cursorStep line column acc m) n hn2 hcov

/-- The fold's result component, when present, is a node of the list whose
area is the recorded best. -/
theorem cursorFold_result (line column : Int) (l : List MdNode) (l0 : List MdNode)
    (hsub : ∀ n ∈ l, n ∈ l0) :
    ∀ (acc : Option MdNode × Option Int),
    (∀ m, acc.1 = some m → acc.2 = calculateNodeArea m ∧ m ∈ l0) →
    ∀ m, (l.foldl (cursorStep line column) acc).1 = some m →
      (l.foldl (cursorStep line column) acc).2 = calculateNodeArea m ∧ m ∈ l0 := by
  induction l with
  | nil => exact fun acc hacc m hm => hacc m hm
  | cons x rest ih =>
    intro acc hacc m hm
    refine ih (fun n hn => hsub n (List.mem_cons_of_mem _ hn))
      (cursorStep line column acc x) ?_ m hm
    intro mm hmm1
    unfold cursorStep at hmm1 ⊢
    split at hmm1
    · next hcond =>
      simp only [Option.some.injEq] at hmm1
      subst hmm1
      rw [if_pos hcond]
      exact ⟨rfl, hsub x (by simp)⟩
    · next hcond =>
      rw [if_neg hcond]
      exact hacc mm hmm1

end Cannonball

namespace Cannonball

/-- **C4 (amended).** The span-area scoring uses K = 1000 exactly as stated:
a node whose end line exceeds its start line scores
`(endLine − startLine)*1000 + (endColumn − startColumn)`, any other positioned
node scores `endColumn − startColumn`.  But a multi-line span is only
guaranteed to score higher than a single-line span when the multi-line span's
column difference is nonnegative and the single-line span is narrower than
1000 columns (`cursor_area_counterexample` refutes the unrestricted claim);
consequently `findNodeAtCursor` never returns a multi-line node while a
single-line node covers the position in trees all of whose multi-line nodes
have nonnegative column difference and whose single-line nodes are narrower
than 1000 columns. -/
theorem cursor_area_scoring_amended :
    (∀ (n : MdNode) (pos : Position), n.position = some pos →
      (pos.stop.line > pos.start.line →
        calculateNodeArea n = some ((pos.stop.line - pos.start.line) * 1000 +
          (pos.stop.column - pos.start.column))) ∧
      (¬pos.stop.line > pos.start.line →
        calculateNodeArea n = some (pos.stop.column - pos.start.column))) ∧
    (∀ (n1 n2 : MdNode) (q1 q2 : Position),
      n1.position = some q1 → ¬q1.stop.line > q1.start.line →
      q1.stop.column - q1.start.column < 1000 →
      n2.position = some q2 → q2.stop.line > q2.start.line →
      q2.stop.column - q2.start.column ≥ 0 →
      ∃ a1 a2 : Int, calculateNodeArea n1 = some a1 ∧
        calculateNodeArea n2 = some a2 ∧ a1 < a2) ∧
    (∀ (ast : MdNode) (line ch : Int),
      (∀ n ∈ preorderNodes ast, ∀ pos : Position, n.position = some pos →
        (pos.stop.line > pos.start.line → pos.stop.column - pos.start.column ≥ 0) ∧
        (¬pos.stop.line > pos.start.line → pos.stop.column - pos.start.column < 1000)) →
      (∃ n0, n0 ∈ preorderNodes ast ∧ ∃ pos0 : Position, n0.position = some pos0 ∧
        ¬pos0.stop.line > pos0.start.line ∧
        isNodeAtPosition n0 (line + 1) (ch + 1) = true) →
      ∀ (m : MdNode) (posm : Position), findNodeAtCursor ast line ch = some m →
        m.position = some posm → ¬posm.stop.line > posm.start.line) := by
  refine ⟨?_, ?_, ?_⟩
  · intro n pos hpos
    exact ⟨fun hml => by simp [calculateNodeArea, hpos, hml],
           fun hml => by simp [calculateNodeArea, hpos, hml]⟩
  · intro n1 n2 q1 q2 hp1 hml1 hw1 hp2 hml2 hw2
    refine ⟨q1.stop.column - q1.start.column,
      (q2.stop.line - q2.start.line) * 1000 + (q2.stop.column - q2.start.column),
      by simp [calculateNodeArea, hp1, hml1],
      by simp [calculateNodeArea, hp2, hml2], ?_⟩
    have hL : 1 ≤ q2.stop.line - q2.start.line := by omega
    omega
  · intro ast line ch hbounds hex m posm hfind hml
    obtain ⟨n0, hn0mem, pos0, hp0, hml0, hcov0⟩ := hex
    unfold findNodeAtCursor at hfind
    obtain ⟨hsnd, hmmem⟩ := cursorFold_result (line + 1) (ch + 1)
      (preorderNodes ast) (preorderNodes ast) (fun n hn => hn) (none, none)
      (fun m2 hm2 => by simp at hm2) m hfind
    intro hmlm
    have hCm := (hbounds m hmmem posm hml).1 hmlm
    have hc0 := (hbounds n0 hn0mem pos0 hp0).2 hml0
    have haream : calculateNodeArea m =
        some ((posm.stop.line - posm.start.line) * 1000 +
          (posm.stop.column - posm.start.column)) := by
      simp [calculateNodeArea, hml, hmlm]
    have harean0 : calculateNodeArea n0 = some (pos0.stop.column - pos0.start.column) := by
      simp [calculateNodeArea, hp0, hml0]
    have hcovers := cursorFold_covers (line + 1) (ch + 1) (preorderNodes ast)
      (none, none) n0 hn0mem hcov0
    rw [hsnd, harean0, haream] at hcovers
    simp only [ltInfinity, decide_eq_false_iff_not, not_lt] at hcovers
    have hL : 1 ≤ posm.stop.line - posm.start.line := by omega
    omega

/-- Multi-line node for the C4 witness: spans lines 1–3, columns 1 to 4. -/
def c4wMulti : MdNode := .mk 1 "code" none (some ⟨⟨1, 1⟩, ⟨3, 4⟩⟩) none none []

/-- Single-line node for the C4 witness: line 1, columns 1 to 9. -/
def c4wSingle : MdNode := .mk 2 "text" none (some ⟨⟨1, 1⟩, ⟨1, 9⟩⟩) none none []

/-- Root of the C4 witness tree, spanning lines 1–3. -/
def c4wTree : MdNode := .mk 0 "root" none (some ⟨⟨1, 1⟩, ⟨3, 4⟩⟩) none none
  [c4wMulti, c4wSingle]

theorem cursor_area_scoring_amended_witness :
    calculateNodeArea c4wMulti = some (2 * 1000 + 3) ∧
    (∃ a1 a2 : Int, calculateNodeArea c4wSingle = some a1 ∧
      calculateNodeArea c4wMulti = some a2 ∧ a1 < a2) ∧
    ∀ posm : Position, findNodeAtCursor c4wTree 0 0 = some c4wSingle →
      c4wSingle.position = some posm → ¬posm.stop.line > posm.start.line := by
  refine ⟨?_, ?_, ?_⟩
  · exact (cursor_area_scoring_amended.1 c4wMulti ⟨⟨1, 1⟩, ⟨3, 4⟩⟩ rfl).1 (by decide)
  · exact cursor_area_scoring_amended.2.1 c4wSingle c4wMulti ⟨⟨1, 1⟩, ⟨1, 9⟩⟩
      ⟨⟨1, 1⟩, ⟨3, 4⟩⟩ rfl (by decide) (by decide) rfl (by decide) (by decide)
  · intro posm hfind hpm
    have hbounds : ∀ n ∈ preorderNodes c4wTree, ∀ pos : Position, n.position = some pos →
        (pos.stop.line > pos.start.line → pos.stop.column - pos.start.column ≥ 0) ∧
        (¬pos.stop.line > pos.start.line → pos.stop.column - pos.start.column < 1000) := by
      intro n hn pos hp
      have hn2 : n ∈ [c4wTree, c4wMulti, c4wSingle] := hn
      simp only [List.mem_cons, List.not_mem_nil, or_false] at hn2
      rcases hn2 with rfl | rfl | rfl <;> injection hp with h <;> subst h <;> decide
    exact cursor_area_scoring_amended.2.2 c4wTree 0 0 hbounds
      ⟨c4wSingle, (by simp : c4wSingle ∈ [c4wTree, c4wMulti, c4wSingle]),
        ⟨⟨1, 1⟩, ⟨1, 9⟩⟩, rfl, by decide, rfl⟩
      c4wSingle posm hfind hpm

end Cannonball

namespace Cannonball

/-! ### Ancestor discovery and context extraction (C8) -/

theorem preorderNodes_eq : ∀ n : MdNode, preorderNodes n = n :: preorderNodesList n.children
  | .mk _ _ _ _ _ _ _ => rfl

/-- Pre-order ids of a forest. -/
def idsList (cs : List MdNode) : List Nat := (preorderNodesList cs).map MdNode.id

theorem ids_eq : ∀ n : MdNode, MdNode.ids n = n.id :: idsList n.children := by
  intro n
  rw [MdNode.ids, preorderNodes_eq, List.map_cons, idsList]

theorem idsList_cons (c : MdNode) (cs : List MdNode) :
    idsList (c :: cs) = MdNode.ids c ++ idsList cs := by
  rw [idsList, MdNode.ids, idsList]
  show (preorderNodes c ++ preorderNodesList cs).map MdNode.id = _
  rw [List.map_append]

theorem self_mem_ids (n : MdNode) : n.id ∈ MdNode.ids n := by
  rw [ids_eq]
  simp

theorem idsList_subset (cs : List MdNode) (c : MdNode) (hc : c ∈ cs) :
    ∀ x ∈ MdNode.ids c, x ∈ idsList cs := by
  induction cs with
  | nil => exact absurd hc (by simp)
  | cons c0 rest ih =>
    intro x hx
    rw [idsList_cons, List.mem_append]
    rcases List.mem_cons.mp hc with rfl | hc2
    · exact Or.inl hx
    · exact Or.inr (ih hc2 x hx)

theorem ids_nodup_of_mem (cs : List MdNode) (c : MdNode) (hc : c ∈ cs)
    (hnd : (idsList cs).Nodup) : (MdNode.ids c).Nodup := by
  induction cs with
  | nil => exact absurd hc (by simp)
  | cons c0 rest ih =>
    rw [idsList_cons] at hnd
    obtain ⟨h1, h2, _⟩ := List.nodup_append.mp hnd
    rcases List.mem_cons.mp hc with rfl | hc2
    · exact h1
    · exact ih hc2 h2

theorem findAncestors_eq (tid : Nat) (anc : List MdNode) : ∀ n : MdNode,
    findAncestors tid anc n =
      if n.id == tid then some anc else findAncestorsList tid (anc ++ [n]) n.children
  | .mk _ _ _ _ _ _ _ => rfl

mutual
theorem findAncestors_not_mem (tid : Nat) (anc : List MdNode) : ∀ n : MdNode,
    tid ∉ MdNode.ids n → findAncestors tid anc n = none
  | .mk i t d p ct hl cs => fun hmem => by
    have hi : (i == tid) = false := by
      have : i ≠ tid := by
        intro h
        exact hmem (h ▸ self_mem_ids (.mk i t d p ct hl cs))
      simpa using this
    rw [findAncestors_eq]
    show (if (i == tid) = true then _ else _) = _
    rw [hi]
    simp only [Bool.false_eq_true, if_false]
    apply findAncestorsList_not_mem
    intro hmem2
    apply hmem
    rw [ids_eq]
    exact List.mem_cons_of_mem _ hmem2
theorem findAncestorsList_not_mem (tid : Nat) (anc : List MdNode) :
    ∀ cs : List MdNode, tid ∉ idsList cs → findAncestorsList tid anc cs = none
  | [] => fun _ => rfl
  | c :: rest => fun hmem => by
    show (match findAncestorsList tid anc rest with
          | some r => some r
          | none => findAncestors tid anc c) = none
    rw [findAncestorsList_not_mem tid anc rest (fun h => hmem (by
      rw [idsList_cons]
      exact List.mem_append_right _ h))]
    exact findAncestors_not_mem tid anc c (fun h => hmem (by
      rw [idsList_cons]
      exact List.mem_append_left _ h))
end

/-- Declarative root-to-target path: `PathTo t path target` holds when
`target` is a node of tree `t` and `path` is the list of its proper ancestors
from the root downwards (`[]` when the target is the root itself). -/
inductive PathTo : MdNode → List MdNode → MdNode → Prop where
  | refl (n : MdNode) : PathTo n [] n
  | child (n c : MdNode) (anc : List MdNode) (target : MdNode) :
      c ∈ n.children → PathTo c anc target → PathTo n (n :: anc) target

theorem pathTo_mem_ids {n : MdNode} {path : List MdNode} {target : MdNode}
    (h : PathTo n path target) : target.id ∈ MdNode.ids n := by
  induction h with
  | refl m => exact self_mem_ids m
  | child m c anc target hc hp ih =>
    rw [ids_eq]
    exact List.mem_cons_of_mem _ (idsList_subset m.children c hc _ ih)

theorem findAncestorsList_found (tid : Nat) (anc : List MdNode) (res : List MdNode) :
    ∀ (cs : List MdNode) (c : MdNode), c ∈ cs →
    findAncestors tid anc c = some res →
    tid ∈ MdNode.ids c →
    (idsList cs).Nodup →
    findAncestorsList tid anc cs = some res := by
  intro cs
  induction cs with
  | nil => intro c hc; exact absurd hc (by simp)
  | cons c0 rest ih =>
    intro c hc hfound htid hnd
    rw [idsList_cons] at hnd
    obtain ⟨hnd1, hnd2, hdisj⟩ := List.nodup_append.mp hnd
    show (match findAncestorsList tid anc rest with
          | some r => some r
          | none => findAncestors tid anc c0) = some res
    rcases List.mem_cons.mp hc with rfl | hc2
    · have hnone : findAncestorsList tid anc rest = none := by
        apply findAncestorsList_not_mem
        intro h
        exact hdisj htid h
      rw [hnone, hfound]
    · have hsome : findAncestorsList tid anc rest = some res :=
        ih c hc2 hfound htid hnd2
      rw [hsome]

theorem findAncestors_of_pathTo {n : MdNode} {path : List MdNode} {target : MdNode}
    (h : PathTo n path target) :
    ∀ anc0 : List MdNode, (MdNode.ids n).Nodup →
      findAncestors target.id anc0 n = some (anc0 ++ path) := by
  induction h with
  | refl m =>
    intro anc0 _
    rw [findAncestors_eq]
    simp
  | child m c anc target hc hp ih =>
    intro anc0 hnd
    rw [ids_eq] at hnd
    obtain ⟨hnotin, hndl⟩ := List.nodup_cons.mp hnd
    have htid : target.id ∈ MdNode.ids c := pathTo_mem_ids hp
    have hne : (m.id == target.id) = false := by
      have : m.id ≠ target.id := by
        intro he
        exact hnotin (he ▸ idsList_subset m.children c hc _ htid)
      simpa using this
    rw [findAncestors_eq]
    show (if (m.id == target.id) = true then _ else _) = _
    rw [hne]
    simp only [Bool.false_eq_true, if_false]
    have := findAncestorsList_found target.id (anc0 ++ [m]) ((anc0 ++ [m]) ++ anc)
      m.children c hc (ih (anc0 ++ [m]) (ids_nodup_of_mem m.children c hc hndl)) htid hndl
    rw [this]
    simp

end Cannonball

namespace Cannonball

/-- **C8.** For a tree with distinct node ids and a positioned node `n` whose
root-to-node ancestor path is `path` (root first, empty when `n` is the root):
`buildContext` returns the whole document text when `n` is the root (no
ancestors), the line-sliced source of `n`'s own span when `n` is a direct
child of the root (exactly one ancestor), and otherwise the line-sliced source
of the span of `path[1]` — `n`'s ancestor that is itself a direct child of the
root. -/
theorem buildContext_cases (tree : MdNode) (hnd : (MdNode.ids tree).Nodup)
    (n : MdNode) (path : List MdNode) (hpath : PathTo tree path n)
    (pos : Position) (hpos : n.position = some pos) (content : String) :
    buildContextFromNode tree (some n) content =
      match path with
      | [] => content
      | [_] => contentFromNode n content
      | _ :: a1 :: _ => contentFromNode a1 content := by
  have hanc : findAncestors n.id [] tree = some path := by
    have := findAncestors_of_pathTo hpath [] hnd
    simpa using this
  simp only [buildContextFromNode, hpos, hanc, Option.getD_some]
  cases path with
  | nil => rfl
  | cons a rest =>
    cases rest with
    | nil => rfl
    | cons b rest2 => rfl

/-- Positioned paragraph inside the C8 witness blockquote. -/
def wP8 : MdNode := .mk 2 "paragraph" none (some ⟨⟨2, 1⟩, ⟨2, 6⟩⟩) none none []

/-- Blockquote (direct child of root) of the C8 witness tree, spanning
lines 2–3. -/
def wBQ8 : MdNode := .mk 1 "blockquote" none (some ⟨⟨2, 1⟩, ⟨3, 4⟩⟩) none none [wP8]

/-- C8 witness tree. -/
def wTree8 : MdNode := .mk 0 "root" none (some ⟨⟨1, 1⟩, ⟨3, 4⟩⟩) none none [wBQ8]

theorem buildContext_cases_witness :
    buildContextFromNode wTree8 (some wP8) "line1\nline2\nline3" =
      contentFromNode wBQ8 "line1\nline2\nline3" :=
  buildContext_cases wTree8 (by decide) wP8 [wTree8, wBQ8]
    (PathTo.child _ _ _ _ (by simp [wTree8, MdNode.children])
      (PathTo.child _ _ _ _ (by simp [wBQ8, MdNode.children]) (PathTo.refl wP8)))
    ⟨⟨2, 1⟩, ⟨2, 6⟩⟩ rfl "line1\nline2\nline3" 

end Cannonball

namespace Cannonball

/-! ### Containment tree building and its insensitivity to decoration (C9) -/

/-- One callback step of `buildContainmentTree`: append `contained` to the
member list of `container` in the insertion-ordered `nodeMap` (keyed by node
reference, modelled by node id), creating the entry at first sight. -/
def mapInsert (m : List (Nat × List MdNode)) (containerId : Nat) (contained : MdNode) :
    List (Nat × List MdNode) :=
  if m.any (fun p => p.1 == containerId) then
    m.map (fun p => if p.1 == containerId then (p.1, p.2 ++ [contained]) else p)
  else
    m ++ [(containerId, [contained])]

/-- `buildContainmentTree(ast)`: runs `processHierarchicalRelationships` once,
accumulating the insertion-ordered `container → [members...]` map.  (The
source finally attaches each member list onto its container node as
`containedNodes` — a decoration the resolver itself never reads — and returns
the root; the adjacency content is the map.) -/
def buildContainmentTree (ast : MdNode) : Except String (List (Nat × List MdNode)) :=
  (processHierarchicalRelationships ast).map
    (fun es => es.foldl (fun m e => mapInsert m e.container.id e.member) [])

/-- The observable content of an adjacency map: each container id with the
ordered ids of its members. -/
def adjacencyIds (m : List (Nat × List MdNode)) : List (Nat × List Nat) :=
  m.map (fun p => (p.1, p.2.map MdNode.id))

/- Clears the decoration fields (`containerType`, `headingLevel`) that the
resolution pass writes onto nodes, recursively: two trees with the same
`eraseDeco` image are the same tree up to decorations left by earlier passes. -/
mutual
def eraseDeco : MdNode → MdNode
  | .mk i t d p _ _ cs => .mk i t d p none none (eraseDecoList cs)
def eraseDecoList : List MdNode → List MdNode
  | [] => []
  | c :: cs => eraseDeco c :: eraseDecoList cs
end

theorem eraseDecoList_eq_map : ∀ cs : List MdNode, eraseDecoList cs = cs.map eraseDeco
  | [] => rfl
  | c :: cs => by rw [eraseDecoList, List.map_cons, eraseDecoList_eq_map]

theorem eraseDeco_id : ∀ n : MdNode, (eraseDeco n).id = n.id
  | .mk _ _ _ _ _ _ _ => rfl

theorem eraseDeco_type : ∀ n : MdNode, (eraseDeco n).type = n.type
  | .mk _ _ _ _ _ _ _ => rfl

theorem eraseDeco_depth : ∀ n : MdNode, (eraseDeco n).depth = n.depth
  | .mk _ _ _ _ _ _ _ => rfl

theorem eraseDeco_children : ∀ n : MdNode, (eraseDeco n).children = n.children.map eraseDeco
  | .mk _ _ _ _ _ _ cs => by
    show eraseDecoList cs = cs.map eraseDeco
    exact eraseDecoList_eq_map cs

/-- Erasure of a stack entry: the carried decorations (assigned by the current
pass from type and depth, which erasure preserves) stay as they are. -/
def eraseEntry (e : StackEntry) : StackEntry :=
  { node := eraseDeco e.node, containerType := e.containerType, headingLevel := e.headingLevel }

/-- Erasure of an emitted edge. -/
def eraseEdge (e : Edge) : Edge :=
  { container := eraseDeco e.container, member := eraseDeco e.member }

/-- Erasure of a whole resolver state. -/
def eraseSt (st : St) : St :=
  { stack := st.stack.map eraseEntry, edges := st.edges.map eraseEdge }

theorem isContainerNode_erase (n : MdNode) :
    isContainerNode (eraseDeco n) = isContainerNode n := by
  simp [isContainerNode, eraseDeco_type]

theorem getContainerType_erase (n : MdNode) :
    getContainerType (eraseDeco n) = getContainerType n := by
  simp [getContainerType, eraseDeco_type]

theorem headingPreTrim_erase (d : Option Nat) : ∀ s : List StackEntry,
    headingPreTrim d (s.map eraseEntry) = (headingPreTrim d s).map eraseEntry
  | [] => rfl
  | [x] => rfl
  | top :: x :: rest => by
    rw [List.map_cons, List.map_cons, headingPreTrim_cons_cons, headingPreTrim_cons_cons]
    show (if top.containerType == "heading" then _ else _) = _
    by_cases h1 : top.containerType == "heading"
    · rw [if_pos h1, if_pos h1]
      show (if jsLtOpt (top.headingLevel.getD 0) d then _ else _) = _
      by_cases h2 : jsLtOpt (top.headingLevel.getD 0) d
      · rw [if_pos h2, if_pos h2]
        rfl
      · rw [if_neg h2, if_neg h2, ← List.map_cons]
        exact headingPreTrim_erase d (x :: rest)
    · rw [if_neg h1, if_neg h1]
      show (if top.containerType == "root" then _ else _) = _
      by_cases h3 : top.containerType == "root"
      · rw [if_pos h3, if_pos h3]
        rfl
      · rw [if_neg h3, if_neg h3, ← List.map_cons]
        exact headingPreTrim_erase d (x :: rest)

theorem resetToRoot_erase : ∀ s : List StackEntry,
    resetToRoot (s.map eraseEntry) = (resetToRoot s).map eraseEntry
  | [] => rfl
  | [x] => rfl
  | a :: x :: rest => by
    rw [List.map_cons, List.map_cons]
    show resetToRoot (eraseEntry x :: rest.map eraseEntry) = _
    rw [← List.map_cons]
    exact resetToRoot_erase (x :: rest)

theorem isDirectParentListItem_erase (pp c : MdNode) (cp : Option MdNode) :
    isDirectParentListItem (eraseDeco pp) (eraseDeco c) (cp.map eraseDeco) =
      isDirectParentListItem pp c cp := by
  cases cp with
  | none => rfl
  | some q =>
    show isDirectParentListItem (eraseDeco pp) (eraseDeco c) (some (eraseDeco q)) = _
    simp only [isDirectParentListItem]
    rw [eraseDeco_type]
    by_cases hq : (q.type == "list") = true
    · rw [if_pos hq, if_pos hq, eraseDeco_children, List.any_map]
      have hfun : ((fun item => item.type == "list" && item.id == (eraseDeco q).id)
          ∘ eraseDeco) = (fun item => item.type == "list" && item.id == q.id) := by
        funext item
        show ((eraseDeco item).type == "list" && (eraseDeco item).id == (eraseDeco q).id) = _
        rw [eraseDeco_type, eraseDeco_id, eraseDeco_id]
      rw [hfun]
    · rw [if_neg hq, if_neg hq]

end Cannonball

namespace Cannonball

/-- Erasing decorations commutes with a (successful) visitor step from a
nonempty stack: the pass never reads the fields that erasure clears. -/
theorem visitStep_erase_ok (n : MdNode) (p : Option MdNode) (st st1 : St)
    (hne : st.stack ≠ []) (h : visitStep n p st = .ok st1) :
    visitStep (eraseDeco n) (p.map eraseDeco) (eraseSt st) = .ok (eraseSt st1) := by
  by_cases hig : ignoreTypes.contains n.type = true
  · rw [visitStep_ignored n p st hig] at h
    cases h
    exact visitStep_ignored _ _ _ (by rw [eraseDeco_type]; exact hig)
  · by_cases htb : n.type = "thematicBreak"
    · rw [visitStep_tb n p st htb] at h
      cases h
      rw [visitStep_tb _ _ _ (by rw [eraseDeco_type]; exact htb)]
      simp [eraseSt, resetToRoot_erase]
    · by_cases hcon : isContainerNode n = true
      · rcases isContainerNode_cases n hcon with hty | hty | hty | hty
        · exact absurd hig (by simp [ignoreTypes, hty])
        · -- heading
          have htne := headingPreTrim_ne n.depth st.stack hne
          obtain ⟨c1, t1, htrim⟩ := List.exists_cons_of_ne_nil htne
          rw [visitStep_heading n p st c1 t1 hty htrim] at h
          cases h
          have htrim2 : headingPreTrim (eraseDeco n).depth (eraseSt st).stack =
              eraseEntry c1 :: t1.map eraseEntry := by
            show headingPreTrim (eraseDeco n).depth (st.stack.map eraseEntry) = _
            rw [eraseDeco_depth, headingPreTrim_erase, htrim, List.map_cons]
          rw [visitStep_heading (eraseDeco n) (p.map eraseDeco) (eraseSt st)
            (eraseEntry c1) (t1.map eraseEntry) (by rw [eraseDeco_type]; exact hty) htrim2]
          simp [eraseSt, eraseEntry, eraseEdge, eraseDeco_depth]
        · -- listItem
          obtain ⟨top, rest, hstk⟩ := List.exists_cons_of_ne_nil hne
          by_cases hkeep : (top.containerType == "listItem"
              && !isDirectParentListItem top.node n p) = true
          · -- full reset
            obtain ⟨bot, hbot⟩ : ∃ x, st.stack.getLast? = some x := by
              cases hgl : st.stack.getLast? with
              | none => exact absurd (List.getLast?_isSome.mpr hne) (by simp [hgl])
              | some y => exact ⟨y, rfl⟩
            rw [Bool.and_eq_true, beq_iff_eq, Bool.not_eq_true'] at hkeep
            rw [listItem_nondirect_full_reset n p st top rest bot hstk hbot hty
              hkeep.1 hkeep.2] at h
            cases h
            have hbot2 : (eraseSt st).stack.getLast? = some (eraseEntry bot) := by
              show (st.stack.map eraseEntry).getLast? = _
              rw [List.getLast?_map, hbot]
              rfl
            rw [listItem_nondirect_full_reset (eraseDeco n) (p.map eraseDeco) (eraseSt st)
              (eraseEntry top) (rest.map eraseEntry) (eraseEntry bot)
              (by show st.stack.map eraseEntry = _; rw [hstk]; rfl) hbot2
              (by rw [eraseDeco_type]; exact hty)
              (by show top.containerType = "listItem"; exact hkeep.1)
              (by show isDirectParentListItem (eraseDeco top.node) (eraseDeco n)
                    (p.map eraseDeco) = false
                  rw [isDirectParentListItem_erase]
                  exact hkeep.2)]
            simp [eraseSt, eraseEntry, eraseEdge]
          · rw [Bool.not_eq_true] at hkeep
            rw [visitStep_listItem_keep n p st top rest hty hstk hkeep] at h
            cases h
            rw [visitStep_listItem_keep (eraseDeco n) (p.map eraseDeco) (eraseSt st)
              (eraseEntry top) (rest.map eraseEntry)
              (by rw [eraseDeco_type]; exact hty)
              (by show st.stack.map eraseEntry = _; rw [hstk]; rfl)
              (by show (top.containerType == "listItem"
                    && !isDirectParentListItem (eraseDeco top.node) (eraseDeco n)
                      (p.map eraseDeco)) = false
                  rw [isDirectParentListItem_erase]
                  exact hkeep)]
            simp [eraseSt, eraseEntry, eraseEdge]
        · -- blockquote
          obtain ⟨top, rest, hstk⟩ := List.exists_cons_of_ne_nil hne
          rw [visitStep_blockquote n p st top rest hty hstk] at h
          cases h
          rw [visitStep_blockquote (eraseDeco n) (p.map eraseDeco) (eraseSt st)
            (eraseEntry top) (rest.map eraseEntry)
            (by rw [eraseDeco_type]; exact hty)
            (by show st.stack.map eraseEntry = _; rw [hstk]; rfl)]
          simp [eraseSt, eraseEntry, eraseEdge]
      · -- leaf
        obtain ⟨top, rest, hstk⟩ := List.exists_cons_of_ne_nil hne
        rw [Bool.not_eq_true] at hcon
        rw [visitStep_leaf n p st top rest (by simpa using hig)
          (by simpa [bne_iff_ne] using htb) hcon hstk] at h
        cases h
        rw [visitStep_leaf (eraseDeco n) (p.map eraseDeco) (eraseSt st)
          (eraseEntry top) (rest.map eraseEntry)
          (by rw [eraseDeco_type]; simpa using hig)
          (by rw [eraseDeco_type]; simpa [bne_iff_ne] using htb)
          (by rw [isContainerNode_erase]; exact hcon)
          (by show st.stack.map eraseEntry = _; rw [hstk]; rfl)]
        simp [eraseSt, eraseEntry, eraseEdge]

end Cannonball

namespace Cannonball

/-- Erasure of one visit event. -/
def evErase (ev : MdNode × Option MdNode) : MdNode × Option MdNode :=
  (eraseDeco ev.1, ev.2.map eraseDeco)

theorem runEvents_erase_ok (evs : List (MdNode × Option MdNode)) :
    ∀ st st1 : St, st.stack ≠ [] → runEvents evs st = .ok st1 →
      runEvents (evs.map evErase) (eraseSt st) = .ok (eraseSt st1) := by
  induction evs with
  | nil =>
    intro st st1 _ h
    cases h
    rfl
  | cons ev rest ih =>
    intro st st1 hne h
    obtain ⟨n, p⟩ := ev
    rw [runEvents] at h
    cases hstep : visitStep n p st with
    | error e =>
      rw [hstep] at h
      exact Except.noConfusion h
    | ok stm =>
      rw [hstep] at h
      obtain ⟨stm2, hstep2, hne2, _, _, _⟩ := visitStep_ok n p st hne
      rw [hstep] at hstep2
      have hee : stm = stm2 := Except.ok.inj hstep2
      subst hee
      show runEvents ((eraseDeco n, p.map eraseDeco) :: rest.map evErase) (eraseSt st) = _
      rw [runEvents, visitStep_erase_ok n p st stm hne hstep]
      exact ih stm st1 hne2 h

mutual
theorem preorderEvents_erase (p : Option MdNode) : ∀ n : MdNode,
    preorderEvents (p.map eraseDeco) (eraseDeco n) = (preorderEvents p n).map evErase
  | .mk i t d pos ct hl cs => by
    show preorderEvents (p.map eraseDeco) (.mk i t d pos none none (eraseDecoList cs)) = _
    rw [preorderEvents_eq, preorderEvents_eq, List.map_cons]
    show (_, _) :: preorderEventsList (.mk i t d pos none none (eraseDecoList cs))
        (eraseDecoList cs) = _
    rw [show (MdNode.mk i t d pos none none (eraseDecoList cs))
        = eraseDeco (.mk i t d pos ct hl cs) from rfl]
    rw [preorderEventsList_erase (.mk i t d pos ct hl cs) cs]
    rfl
theorem preorderEventsList_erase (parent : MdNode) : ∀ cs : List MdNode,
    preorderEventsList (eraseDeco parent) (eraseDecoList cs) =
      (preorderEventsList parent cs).map evErase
  | [] => rfl
  | c :: cs => by
    show preorderEvents (some (eraseDeco parent)) (eraseDeco c)
        ++ preorderEventsList (eraseDeco parent) (eraseDecoList cs) = _
    rw [show (some (eraseDeco parent)) = (some parent).map eraseDeco from rfl,
      preorderEvents_erase (some parent) c, preorderEventsList_erase parent cs]
    show _ = (preorderEvents (some parent) c ++ preorderEventsList parent cs).map evErase
    rw [List.map_append]
end

/-- Erasing decorations commutes with the whole resolution pass. -/
theorem process_erase (ast : MdNode) (es : List Edge)
    (hok : processHierarchicalRelationships ast = .ok es) :
    processHierarchicalRelationships (eraseDeco ast) = .ok (es.map eraseEdge) := by
  obtain ⟨stF, hfin, hesF⟩ := process_run ast es hok
  have h2 := runEvents_erase_ok (preorderEvents none ast) _ stF (by simp) hfin
  rw [show (preorderEvents none ast).map evErase
      = preorderEvents none (eraseDeco ast) from (preorderEvents_erase none ast).symm] at h2
  unfold processHierarchicalRelationships
  rw [show runEvents (preorderEvents none (eraseDeco ast))
      { stack := [{ node := eraseDeco ast, containerType := "root", headingLevel := none }],
        edges := [] } = Except.ok (eraseSt stF) from h2]
  show Except.ok (stF.edges.map eraseEdge) = _
  rw [hesF]

/-- Erasure of the values stored in an adjacency map. -/
def eraseMap (m : List (Nat × List MdNode)) : List (Nat × List MdNode) :=
  m.map (fun q => (q.1, q.2.map eraseDeco))

theorem adjacencyIds_eraseMap (m : List (Nat × List MdNode)) :
    adjacencyIds (eraseMap m) = adjacencyIds m := by
  unfold adjacencyIds eraseMap
  rw [List.map_map]
  have hcomp : ((fun p : Nat × List MdNode => (p.1, p.2.map MdNode.id))
      ∘ (fun q : Nat × List MdNode => (q.1, q.2.map eraseDeco)))
      = fun p : Nat × List MdNode => (p.1, p.2.map MdNode.id) := by
    funext q
    show (q.1, (q.2.map eraseDeco).map MdNode.id) = (q.1, q.2.map MdNode.id)
    rw [List.map_map, show MdNode.id ∘ eraseDeco = MdNode.id from funext eraseDeco_id]
  rw [hcomp]

end Cannonball

namespace Cannonball

theorem mapInsert_erase (m : List (Nat × List MdNode)) (c : Nat) (v : MdNode) :
    mapInsert (eraseMap m) c (eraseDeco v) = eraseMap (mapInsert m c v) := by
  unfold mapInsert
  have hany : (eraseMap m).any (fun p => p.1 == c) = m.any (fun p => p.1 == c) := by
    unfold eraseMap
    rw [List.any_map]
    rfl
  rw [hany]
  by_cases hc : m.any (fun p => p.1 == c) = true
  · rw [if_pos hc, if_pos hc]
    unfold eraseMap
    rw [List.map_map, List.map_map]
    have hcomp : ((fun p : Nat × List MdNode =>
          if p.1 == c then (p.1, p.2 ++ [eraseDeco v]) else p)
        ∘ (fun q : Nat × List MdNode => (q.1, q.2.map eraseDeco)))
        = ((fun q : Nat × List MdNode => (q.1, q.2.map eraseDeco))
        ∘ (fun p : Nat × List MdNode => if p.1 == c then (p.1, p.2 ++ [v]) else p)) := by
      funext q
      show (if q.1 == c then (q.1, q.2.map eraseDeco ++ [eraseDeco v])
            else (q.1, q.2.map eraseDeco)) = _
      by_cases hq : (q.1 == c) = true
      · rw [if_pos hq]
        show _ = (fun q : Nat × List MdNode => (q.1, q.2.map eraseDeco))
          (if q.1 == c then (q.1, q.2 ++ [v]) else q)
        rw [if_pos hq]
        show _ = (q.1, (q.2 ++ [v]).map eraseDeco)
        rw [List.map_append]
        rfl
      · rw [if_neg hq]
        show _ = (fun q : Nat × List MdNode => (q.1, q.2.map eraseDeco))
          (if q.1 == c then (q.1, q.2 ++ [v]) else q)
        rw [if_neg hq]
    rw [hcomp]
  · rw [if_neg hc, if_neg hc]
    unfold eraseMap
    rw [List.map_append]
    rfl

theorem foldl_mapInsert_erase (es : List Edge) :
    ∀ m : List (Nat × List MdNode),
    (es.map eraseEdge).foldl (fun m e => mapInsert m e.container.id e.member) (eraseMap m)
      = eraseMap (es.foldl (fun m e => mapInsert m e.container.id e.member) m) := by
  induction es with
  | nil => exact fun m => rfl
  | cons e rest ih =>
    intro m
    show (rest.map eraseEdge).foldl _
        (mapInsert (eraseMap m) (eraseDeco e.container).id (eraseDeco e.member)) = _
    rw [eraseDeco_id, mapInsert_erase, ih]
    rfl

/-- **C9.** Idempotent/decoration-insensitive tree building: the adjacency
content (container id → ordered member ids) produced by `buildContainmentTree`
depends only on the decoration-erased input.  In particular, since one run
mutates the input tree only in the decoration fields (`containerType`,
`headingLevel`, and the `containedNodes` attachment, none of which the
resolver reads), calling `buildContainmentTree` twice on the same unmodified
input yields adjacency maps with identical container → member-sequence
content. -/
theorem buildTree_idempotent (t1 t2 : MdNode) (h : eraseDeco t1 = eraseDeco t2) :
    (buildContainmentTree t1).map adjacencyIds = (buildContainmentTree t2).map adjacencyIds := by
  obtain ⟨es1, hok1, hm1, hc1⟩ := process_ok t1
  obtain ⟨es2, hok2, hm2, hc2⟩ := process_ok t2
  have he1 := process_erase t1 es1 hok1
  have he2 := process_erase t2 es2 hok2
  rw [h] at he1
  have hmapeq : es1.map eraseEdge = es2.map eraseEdge :=
    Except.ok.inj (he1.symm.trans he2)
  unfold buildContainmentTree
  rw [hok1, hok2]
  show Except.ok (adjacencyIds
      (es1.foldl (fun m e => mapInsert m e.container.id e.member) [])) = Except.ok _
  congr 1
  rw [← adjacencyIds_eraseMap (es1.foldl (fun m e => mapInsert m e.container.id e.member) []),
    ← foldl_mapInsert_erase es1 [], hmapeq, foldl_mapInsert_erase es2 [],
    adjacencyIds_eraseMap]

/-- Decorated tree for the C9 witness (as a first pass would leave it). -/
def c9Decorated : MdNode :=
  .mk 0 "root" none none (some "root") none
    [.mk 1 "heading" (some 2) none (some "heading") (some 2)
      [.mk 2 "text" none none none none []],
     .mk 3 "paragraph" none none none none []]

/-- The same tree without decorations. -/
def c9Plain : MdNode :=
  .mk 0 "root" none none none none
    [.mk 1 "heading" (some 2) none none none
      [.mk 2 "text" none none none none []],
     .mk 3 "paragraph" none none none none []]

theorem buildTree_idempotent_witness :
    (buildContainmentTree c9Decorated).map adjacencyIds =
      (buildContainmentTree c9Plain).map adjacencyIds :=
  buildTree_idempotent c9Decorated c9Plain rfl

end Cannonball
